import Mathlib

/-!
# A verification development for the openturbo task runner

This file gives a shallow embedding, in Lean 4, of the core algorithms of the
openturbo repository (a TurboRepo-style task runner with git-worktree
awareness), together with theorems about that embedding:

* `src/branch.ts` — glob matching and the branch predicate
  (`matchGlob`, `matchBranchPattern`, `shouldRunOnBranch`);
* `src/config.ts` — JSONC comment stripping (`stripJsonComments`);
* `src/npm-workspace.ts` — task-DAG construction and layered topological
  sorting (`resolveTaskDependencies`, `topologicalSort`);
* `src/graph.ts` — step resolution with transitive dependencies
  (`resolveStepsWithDeps`);
* `src/actions/cmd.ts` — the layer-by-layer workspace-script executor;
* `src/git/worktree.ts` — path-safe copying between worktrees.

JavaScript strings are modelled as `List Char` (sequences of characters);
JavaScript `Map`/`Set` objects are modelled by association lists and
duplicate-free lists in insertion order, or by plain functions when the code
only ever accesses them by key.  Fallible code returns `Except String`;
filesystem- and process-effects are modelled by explicit oracles and event
traces.  Where the translation of a JavaScript idiom is not immediate, a
comment next to the definition explains the correspondence.
-/

namespace OpenTurbo

/-- Characters of a string literal, used to feed concrete examples to the
`List Char` model of JavaScript strings. -/
def strChars (s : String) : List Char := s.data

/-! ## `src/branch.ts` — glob matching and the branch predicate

`matchGlob` in the source builds a regular expression from the pattern by
replacing `*` with `.*` and `?` with `.`, **without escaping** anything else,
and tests the whole string against `^...$`.  Consequently `*` matches any run
of characters, while `?` and also a literal `.` in the pattern each match any
single character (an unescaped `.` is the regex wildcard).  We model the
compiled regex for the fragment of patterns actually expressible this way:
patterns whose characters carry no other regex metacharacter meaning.  Each
pattern character compiles to a token. -/

/-- One compiled token of the regex produced by `matchGlob`:
`star` is `.*` (from `*`), `anyChar` is `.` (from `?` or a literal `.`),
`lit c` matches exactly the character `c`. -/
inductive GlobTok where
  | star : GlobTok
  | anyChar : GlobTok
  | lit : Char → GlobTok
deriving DecidableEq, Repr

/-- Compilation performed by `matchGlob`:
`pattern.replace(/\*/g, ".*").replace(/\?/g, ".")` read token by token.
A `*` becomes `.*`; a `?` becomes `.`; a pre-existing `.` stays `.` (the
source never escapes it); anything else is a literal.  Faithful only on the
`safeGlobPattern` fragment defined below: a remaining regex metacharacter
(`regexMeta`) keeps its regex semantics in the source — `+`, alternation,
groups, classes, anchors, escapes, up to `RegExp` constructor errors — which
this token model deliberately does not represent. -/
def globTokens (pattern : List Char) : List GlobTok :=
  pattern.map fun c =>
    if c = '*' then GlobTok.star
    else if c = '?' then GlobTok.anyChar
    else if c = '.' then GlobTok.anyChar
    else GlobTok.lit c

/-- Anchored matching of the compiled token list against a text, i.e. the
semantics of `^tokens$.test(text)`: `.*` matches an arbitrary run (some
suffix split), `.` matches exactly one character, a literal matches itself. -/
def globMatch : List GlobTok → List Char → Bool
  | [], s => s.isEmpty
  | GlobTok.lit c :: p, s =>
    match s with
    | [] => false
    | d :: s' => c == d && globMatch p s'
  | GlobTok.anyChar :: p, s =>
    match s with
    | [] => false
    | _ :: s' => globMatch p s'
  | GlobTok.star :: p, s => s.tails.any fun s' => globMatch p s'

/-- `matchGlob(text, pattern)` from `src/branch.ts`. -/
def matchGlob (text pattern : List Char) : Bool :=
  globMatch (globTokens pattern) text

/-- Declarative matching relation for compiled glob tokens: what it means for
a text to match the pattern.  `star` may absorb any characters one at a time
or none; `anyChar` consumes exactly one character; `lit c` consumes `c`. -/
inductive GlobMatches : List GlobTok → List Char → Prop where
  | nil : GlobMatches [] []
  | lit {c : Char} {p : List GlobTok} {s : List Char} :
      GlobMatches p s → GlobMatches (GlobTok.lit c :: p) (c :: s)
  | anyChar {c : Char} {p : List GlobTok} {s : List Char} :
      GlobMatches p s → GlobMatches (GlobTok.anyChar :: p) (c :: s)
  | starEmpty {p : List GlobTok} {s : List Char} :
      GlobMatches p s → GlobMatches (GlobTok.star :: p) s
  | starCons {c : Char} {p : List GlobTok} {s : List Char} :
      GlobMatches (GlobTok.star :: p) s → GlobMatches (GlobTok.star :: p) (c :: s)

/-- Modelled from the spec's words, for comparison only: the specification
section 4.A states the glob translation escapes regex metacharacters, so that
`.` in a pattern is a *literal*.  This definition follows those words; it is
not a translation of the source (which does not escape). -/
def globTokensLiteralDot (pattern : List Char) : List GlobTok :=
  pattern.map fun c =>
    if c = '*' then GlobTok.star
    else if c = '?' then GlobTok.anyChar
    else GlobTok.lit c

/-- The spec-described matcher in which `.` is literal (see
`globTokensLiteralDot`); used only to exhibit where it diverges from the
implemented `matchGlob`. -/
def matchGlobLiteralDot (text pattern : List Char) : Bool :=
  globMatch (globTokensLiteralDot pattern) text

/-- The characters of `"worktree:"`, the special prefix recognised by
`matchBranchPattern`. -/
def worktreeMarker : List Char := strChars "worktree:"

/-- `matchBranchPattern(branch, pattern, inWorktree)` from `src/branch.ts`.
`pattern.startsWith("worktree:")` is `worktreeMarker.isPrefixOf pattern`;
`pattern.slice(9)` is `pattern.drop 9`; `pattern.startsWith("!")` is
`['!'].isPrefixOf pattern`; `pattern.slice(1)` is `pattern.drop 1`. -/
def matchBranchPattern (branch pattern : List Char) (inWorktree : Bool) : Bool :=
  if worktreeMarker.isPrefixOf pattern then
    if !inWorktree then false
    else
      let branchPattern := pattern.drop 9
      if branchPattern = ['*'] then true
      else matchGlob branch branchPattern
  else if ['!'].isPrefixOf pattern then
    !(matchGlob branch (pattern.drop 1))
  else matchGlob branch pattern

/-- `shouldRunOnBranch(branches, currentBranch, inWorktree)` from
`src/branch.ts`.  `branches` is `undefined` (`none`) or an array.  The
source's `for`-loop over `negations` returning `false` on the first failing
negation is the `List.all` test below; the positive check is a direct
transcription of `positives.some(...)`. -/
def shouldRunOnBranch (branches : Option (List (List Char)))
    (currentBranch : List Char) (inWorktree : Bool) : Bool :=
  match branches with
  | none => true
  | some bs =>
    if bs.isEmpty then true
    else if (bs.filter fun b => ['!'].isPrefixOf b).all
        (fun neg => matchBranchPattern currentBranch neg inWorktree) then
      if 0 < (bs.filter fun b => !(['!'].isPrefixOf b)).length then
        (bs.filter fun b => !(['!'].isPrefixOf b)).any
          (fun p => matchBranchPattern currentBranch p inWorktree)
      else true
    else false

/-! ## `src/config.ts` — JSONC comment stripping

`stripJsonComments` applies two global regex replacements in sequence:
`jsonc.replace(/\/\/.*$/gm, "")` removes, on every line, everything from the
first `//` to the end of the line (the `m` flag makes `$` stop at any
JavaScript line terminator, which `.` does not cross), and then
`result.replace(/\/\*[\s\S]*?\*\//g, "")` removes every block running from a
`/*` to the *nearest* following `*/` (lazy quantifier); a `/*` with no
matching `*/` anywhere after it is left in place because the regex then has
no match.  Both passes are modelled as left-to-right scanners below. -/

/-- A JavaScript `LineTerminator`: the characters that `.` does not match and
before which a multiline `$` asserts. -/
def isLineTerm (c : Char) : Bool :=
  c = '\n' || c = '\r' || c = Char.ofNat 0x2028 || c = Char.ofNat 0x2029

/-- The regex metacharacters, besides `*`, `?` and `.`, that survive
`matchGlob`'s unescaped interpolation with their regex meaning intact (and
can even make the `RegExp` constructor throw).  `Char.ofNat 123` and
`Char.ofNat 125` are the curly braces. -/
def regexMeta : List Char :=
  ['+', '(', ')', '[', ']', Char.ofNat 123, Char.ofNat 125, '|', '^', '$', '\\']

/-- The pattern fragment on which the token model `globTokens` is faithful to
the compiled regex: patterns free of the metacharacters in `regexMeta`.
Outside this fragment the source gives the characters regex semantics that
the token model does not represent. -/
def safeGlobPattern (p : List Char) : Bool :=
  p.all fun c => !regexMeta.contains c

/-- Texts on which an unflagged regex `.` (and hence `.*`) consumes exactly
one `Char`: no `LineTerminator` (which `.` refuses) and no character beyond
the Basic Multilingual Plane (which JavaScript counts as two units). -/
def plainText (s : List Char) : Bool :=
  s.all fun c => !isLineTerm c && c.toNat < 0x10000

/-- Whether the text contains the two-character sequence `//`. -/
def hasSlashSlash : List Char → Bool
  | [] => false
  | [_] => false
  | c1 :: c2 :: rest => (c1 = '/' && c2 = '/') || hasSlashSlash (c2 :: rest)

/-- Whether the text contains the two-character sequence `/*`. -/
def hasSlashStar : List Char → Bool
  | [] => false
  | [_] => false
  | c1 :: c2 :: rest => (c1 = '/' && c2 = '*') || hasSlashStar (c2 :: rest)

/-- Whether the text contains the two-character sequence `*/`. -/
def hasStarSlash : List Char → Bool
  | [] => false
  | [_] => false
  | c1 :: c2 :: rest => (c1 = '*' && c2 = '/') || hasStarSlash (c2 :: rest)

/-- The single-line pass `replace(/\/\/.*$/gm, "")` as a scanner.  The flag
records whether we are currently inside a `//` comment: once inside, every
character up to (but not including) the next line terminator is dropped. -/
def stripLineAux : Bool → List Char → List Char
  | _, [] => []
  | true, c :: rest =>
    if isLineTerm c then c :: stripLineAux false rest else stripLineAux true rest
  | false, [c] => [c]
  | false, c1 :: c2 :: rest =>
    if c1 = '/' ∧ c2 = '/' then stripLineAux true rest
    else c1 :: stripLineAux false (c2 :: rest)

/-- First replacement of `stripJsonComments`. -/
def stripLineComments (s : List Char) : List Char := stripLineAux false s

/-- The block pass `replace(/\/\*[\s\S]*?\*\//g, "")` as a scanner.  The flag
records whether we are inside a `/* ... */` comment.  A `/*` only opens a
comment when some `*/` follows (otherwise the lazy regex has no match there
or anywhere later, and the rest of the text is returned verbatim); inside a
comment, everything up to and including the nearest `*/` is dropped. -/
def stripBlockGo : Bool → List Char → List Char
  | _, [] => []
  | true, [_] => []
  | true, c1 :: c2 :: rest =>
    if c1 = '*' ∧ c2 = '/' then stripBlockGo false rest
    else stripBlockGo true (c2 :: rest)
  | false, [c] => [c]
  | false, c1 :: c2 :: rest =>
    if c1 = '/' ∧ c2 = '*' then
      if hasStarSlash rest then stripBlockGo true rest else c1 :: c2 :: rest
    else c1 :: stripBlockGo false (c2 :: rest)

/-- Second replacement of `stripJsonComments`. -/
def stripBlockComments (s : List Char) : List Char := stripBlockGo false s

/-- `stripJsonComments(jsonc)` from `src/config.ts`: the line pass followed by
the block pass. -/
def stripJsonComments (jsonc : List Char) : List Char :=
  stripBlockComments (stripLineComments jsonc)

/-! ## `src/npm-workspace.ts` — workspace packages, task DAG, layered sort

Package and task names are Lean `String`s here.  JavaScript `Map`s that are
only ever read by key are modelled either as association lists with
last-write-wins lookup (`Map` construction from a list overwrites earlier
duplicate keys, hence the `reverse.find?`) or, for the in-degree map whose
iteration order is never used, as a plain function `String → Int`
(JavaScript numbers under `x - 1` are modelled as integers). -/

/-- `WorkspacePackage` from `src/npm-workspace.ts`.  `scripts` is the
package-manifest scripts object, modelled as an association list of
`name ↦ command`. -/
structure WorkspacePackage where
  name : String
  path : String
  scripts : List (String × String)
  workspaceDeps : List String
deriving DecidableEq, Repr

/-- The JavaScript test `script in p.scripts` — key membership in the
scripts object. -/
def scriptsHas (p : WorkspacePackage) (script : String) : Bool :=
  p.scripts.any fun kv => kv.1 == script

/-- `TaskNode` from `src/npm-workspace.ts`. -/
structure TaskNode where
  packageName : String
  packagePath : String
  script : String
  dependencies : List String
deriving DecidableEq, Repr

/-- The task ID `` `pkg#script` `` used throughout the sorter. -/
def taskId (n : TaskNode) : String := n.packageName ++ "#" ++ n.script

/-- `buildDependencyGraph(packages)`: adjacency list mapping each package
name to its workspace dependency names, in package order. -/
def buildDependencyGraph (packages : List WorkspacePackage) :
    List (String × List String) :=
  packages.map fun p => (p.name, p.workspaceDeps)

/-- `Map.get` on a map built from an association list (last write wins). -/
def graphGet (graph : List (String × List String)) (name : String) :
    Option (List String) :=
  (graph.reverse.find? fun kv => kv.1 == name).map fun kv => kv.2

/-- `packageMap.get(name)` for the map built from the package list. -/
def pkgMapGet (packages : List WorkspacePackage) (name : String) :
    Option WorkspacePackage :=
  packages.reverse.find? fun p => p.name == name

/-- `specDep.split("#")` character-wise: JavaScript `String.split` with a
single-character separator. -/
def splitChars (sep : Char) : List Char → List (List Char)
  | [] => [[]]
  | c :: rest =>
    if c = sep then [] :: splitChars sep rest
    else
      match splitChars sep rest with
      | [] => [[c]]
      | g :: gs => (c :: g) :: gs

/-- `resolveTaskDependencies(script, dependsOn, packages, dependencyGraph)`
from `src/npm-workspace.ts`.  One node per package that has `script`; its
dependency list is the caret-induced edges (same script in every workspace
dependency that has it) when some spec starts with `^`, followed by every
spec containing `#` whose `PKG#SCRIPT` parts name an existing package with
that script.  JavaScript's falsy test on the destructured `split("#")` parts
is the emptiness test on the first two groups.  (The source also fills a
local `taskDeps` map, but only the node array is returned.) -/
def resolveTaskDependencies (script : String) (dependsOn : List String)
    (packages : List WorkspacePackage)
    (dependencyGraph : List (String × List String)) : List TaskNode :=
  (packages.filter fun p => scriptsHas p script).map fun pkg =>
    { packageName := pkg.name
      packagePath := pkg.path
      script := script
      dependencies :=
        (if dependsOn.any (fun d => ['^'].isPrefixOf d.data) then
          ((graphGet dependencyGraph pkg.name).getD []).filterMap fun depName =>
            match pkgMapGet packages depName with
            | some depPkg =>
              if scriptsHas depPkg script then some (depName ++ "#" ++ script)
              else none
            | none => none
        else []) ++
        ((dependsOn.filter fun d => d.data.contains '#').filter fun specDep =>
          if (splitChars '#' specDep.data).getD 0 [] ≠ [] ∧
              (splitChars '#' specDep.data).getD 1 [] ≠ [] then
            match pkgMapGet packages
                (String.mk ((splitChars '#' specDep.data).getD 0 [])) with
            | some targetPkg =>
              scriptsHas targetPkg
                (String.mk ((splitChars '#' specDep.data).getD 1 []))
            | none => false
          else false) }

/-- Package `engine` of the workspace-DAG scenario: depends on `internals`,
has a `test` script. -/
def enginePkg : WorkspacePackage :=
  ⟨"engine", "packages/engine", [("test", "bun test")], ["internals"]⟩

/-- Package `internals` of the workspace-DAG scenario: no dependencies, has a
`test` script. -/
def internalsPkg : WorkspacePackage :=
  ⟨"internals", "packages/internals", [("test", "bun test")], []⟩

/-- Package `hcl` of the workspace-DAG scenario: depends on `internals`, has
a `test` script. -/
def hclPkg : WorkspacePackage :=
  ⟨"hcl", "packages/hcl", [("test", "bun test")], ["internals"]⟩

/-- The package set of the workspace-DAG scenario. -/
def scenarioPkgs : List WorkspacePackage := [enginePkg, internalsPkg, hclPkg]

/-- `nodeMap.get(id)` for the map built from the node list keyed by task ID
(last write wins). -/
def nodeMapGet (nodes : List TaskNode) (id : String) : Option TaskNode :=
  nodes.reverse.find? fun n => taskId n == id

/-- `new Set(nodes.map(...))`: deduplication keeping the first occurrence, in
insertion order. -/
def dedupFirstAux (seen : List String) : List String → List String
  | [] => []
  | x :: rest =>
    if seen.contains x then dedupFirstAux seen rest
    else x :: dedupFirstAux (x :: seen) rest

/-- Insertion-order member list of a JavaScript `Set` built from a list. -/
def dedupFirst (l : List String) : List String := dedupFirstAux [] l

/-- The initial in-degree map of `topologicalSort`: every node ID starts at
`0`, then for each node and each of its dependency entries present in the
node map, the node's own entry is incremented.  Duplicate IDs accumulate into
the same key, and duplicate dependency entries count with multiplicity,
exactly as the source's loop does. -/
def inDeg0 (nodes : List TaskNode) (id : String) : Int :=
  ((nodes.filter fun n => taskId n == id).map fun n =>
    ((n.dependencies.filter fun d => (nodeMapGet nodes d).isSome).length : Int)).sum

/-- The in-degree update performed when the node with ID `id` is removed from
`remaining`: every node whose dependency list contains `id` (a membership
test, so multiplicity is ignored) has its own entry decremented once. -/
def decDeg (nodes : List TaskNode) (id : String) (deg : String → Int) :
    String → Int :=
  fun x => deg x - ((nodes.filter fun n => taskId n == x && n.dependencies.contains id).length : Int)

/-- The IDs collected into the current layer: the remaining IDs, in insertion
order, whose in-degree is `0` and which resolve in the node map (the source
checks `inDegree.get(id) ?? 0 === 0` and then `nodeMap.get(id)`). -/
def collectLayerIds (nodes : List TaskNode) (remaining : List String)
    (deg : String → Int) : List String :=
  remaining.filter fun id => deg id == 0 && (nodeMapGet nodes id).isSome

/-- The error message thrown on a stuck round. -/
def cycleMsg (remaining : List String) : String :=
  "Circular dependency detected in tasks: " ++ String.intercalate ", " remaining

/-- One round of the `while (remaining.size > 0)` loop, and the rounds after
it.  The loop body deletes each layer ID from the `remaining` set (modelled
by the filter — see `filter_foldl_erase`) and applies the in-degree decrement
for each removed ID in layer order.  The `fuel` argument only bounds the
number of rounds so that the recursion is structural; `topologicalSort`
supplies `remaining.length + 1`, and since every non-erroring round removes
at least one remaining ID, the `fuel = 0` branch is unreachable from it
(`sortGo_no_fuel_exhaustion` below makes this precise). -/
def sortGo (nodes : List TaskNode) :
    Nat → List String → (String → Int) → Except String (List (List TaskNode))
  | 0, _, _ => Except.error "fuel exhausted"
  | fuel + 1, remaining, deg =>
    if remaining.isEmpty then Except.ok []
    else if (collectLayerIds nodes remaining deg).isEmpty then
      Except.error (cycleMsg remaining)
    else
      match sortGo nodes fuel
        (remaining.filter fun id => !(deg id == 0 && (nodeMapGet nodes id).isSome))
        ((collectLayerIds nodes remaining deg).foldl
          (fun d id => decDeg nodes id d) deg) with
      | Except.error e => Except.error e
      | Except.ok ls =>
        Except.ok (((collectLayerIds nodes remaining deg).filterMap
          (nodeMapGet nodes)) :: ls)

/-- `topologicalSort(nodes)` from `src/npm-workspace.ts`. -/
def topologicalSort (nodes : List TaskNode) :
    Except String (List (List TaskNode)) :=
  if nodes.isEmpty then Except.ok []
  else
    sortGo nodes (dedupFirst (nodes.map taskId)).length.succ
      (dedupFirst (nodes.map taskId)) (inDeg0 nodes)

/-- The `(remaining, in-degree map)` state transformation performed by one
round of the sorter's `while` loop, as a pure function (used to phrase "a
round of layering would emit an empty layer while nodes remain"). -/
def stepState (nodes : List TaskNode) (st : List String × (String → Int)) :
    List String × (String → Int) :=
  (st.1.filter fun id => !(st.2 id == 0 && (nodeMapGet nodes id).isSome),
   (collectLayerIds nodes st.1 st.2).foldl (fun d id => decDeg nodes id d) st.2)

/-- The initial state of the sorter's loop. -/
def initState (nodes : List TaskNode) : List String × (String → Int) :=
  (dedupFirst (nodes.map taskId), inDeg0 nodes)

/-- A stuck loop state: IDs remain but the round's layer is empty. -/
def Stuck (nodes : List TaskNode) (st : List String × (String → Int)) : Prop :=
  st.1 ≠ [] ∧ collectLayerIds nodes st.1 st.2 = []

/-- Task `a#t` of the cycle scenario (`a#t → b#t → a#t`). -/
def cycleNodeA : TaskNode := ⟨"a", "pkgs/a", "t", ["b#t"]⟩

/-- Task `b#t` of the cycle scenario. -/
def cycleNodeB : TaskNode := ⟨"b", "pkgs/b", "t", ["a#t"]⟩

/-- The in-degree invariant of the sorter's loop: for every input node, the
current in-degree of its ID equals the number of its dependency entries that
are present in the node map and still remaining. -/
def DegInv (nodes : List TaskNode) (st : List String × (String → Int)) : Prop :=
  ∀ n ∈ nodes, st.2 (taskId n) =
    ((n.dependencies.filter fun d =>
      (nodeMapGet nodes d).isSome && st.1.contains d).length : Int)

/-- Task `a#t` listing its (present) dependency `b#t` twice — an acyclic
edge set written with a duplicated entry. -/
def dupDepNodeA : TaskNode := ⟨"a", "pa", "t", ["b#t", "b#t"]⟩

/-- Task `b#t` with no dependencies. -/
def dupDepNodeB : TaskNode := ⟨"b", "pb", "t", []⟩

/-- A topological height function witnessing that the edge set of
`[dupDepNodeA, dupDepNodeB]` (namely `a#t → b#t`) is acyclic. -/
def dupDepRank (s : String) : Nat := if s = "b#t" then 0 else 1

/-- The task nodes of the three-package scenario
(`engine#test`, `internals#test`, `hcl#test`). -/
def scenarioNodes : List TaskNode :=
  [⟨"engine", "packages/engine", "test", ["internals#test"]⟩,
   ⟨"internals", "packages/internals", "test", []⟩,
   ⟨"hcl", "packages/hcl", "test", ["internals#test"]⟩]

/-! ## `src/graph.ts` — step resolution with transitive dependencies

`resolveStepsWithDeps` does a depth-first walk with a `visiting` set for
cycle detection and a `needed` set accumulating results; the final output is
the declaration-ordered filter of `steps` by membership in `needed`.  The
recursion depth is bounded by the number of distinct step names plus one
(each recursive level first consults `needed`/`visiting`), so the recursion
is modelled with a fuel argument of `steps.length + 1`; the fuel-exhaustion
branch is unreachable from `resolveStepsWithDeps` (the theorems below never
meet it).  Passing `visiting` functionally models the source's
`visiting.add(name)` / `visiting.delete(name)` bracket around the loop. -/

/-- A workflow step, restricted to the fields `resolveStepsWithDeps` reads:
its unique `name` and the optional `dependsOn` array. -/
structure Step where
  name : String
  dependsOn : Option (List String)
deriving DecidableEq, Repr

/-- `step.dependsOn ?? []`. -/
def stepDeps (s : Step) : List String := s.dependsOn.getD []

/-- `stepMap.get(name)` for the map built from the step list keyed by name
(last write wins). -/
def stepMapGet (steps : List Step) (name : String) : Option Step :=
  steps.reverse.find? fun s => s.name == name

/-- The steps of the step-resolution scenario: `lint`, `build` (depends on
`lint`), `test` (depends on `build`), declared in that order. -/
def scenarioSteps : List Step :=
  [⟨"lint", none⟩, ⟨"build", some ["lint"]⟩, ⟨"test", some ["build"]⟩]

mutual

/-- `addWithDeps(name)` from `src/graph.ts`: skip if already needed, throw on
a `visiting` hit (cycle) or a missing step, otherwise walk the dependencies
first and append the name afterwards. -/
def addWithDeps (steps : List Step) :
    Nat → String → List String → List String → Except String (List String)
  | 0, _, _, _ => Except.error "Maximum dependency depth exceeded"
  | fuel + 1, name, needed, visiting =>
    if needed.contains name then Except.ok needed
    else if visiting.contains name then
      Except.error ("Circular dependency detected involving step: \"" ++
        name ++ "\"")
    else
      match stepMapGet steps name with
      | none => Except.error ("Step \"" ++ name ++ "\" not found")
      | some step =>
        match addEachDep steps fuel (stepDeps step) needed (visiting ++ [name]) with
        | Except.error e => Except.error e
        | Except.ok needed' => Except.ok (needed' ++ [name])
termination_by fuel _ _ _ => (fuel, 0)

/-- The `for (const dep of step.dependsOn ?? [])` loop of `addWithDeps`,
threading the `needed` set and propagating the first thrown error. -/
def addEachDep (steps : List Step) :
    Nat → List String → List String → List String → Except String (List String)
  | _, [], needed, _ => Except.ok needed
  | fuel, dep :: rest, needed, visiting =>
    match addWithDeps steps fuel dep needed visiting with
    | Except.error e => Except.error e
    | Except.ok needed' => addEachDep steps fuel rest needed' visiting
termination_by fuel l _ _ => (fuel, l.length + 1)

end

/-- The loop of `resolveStepsWithDeps` over the requested names; `visiting`
is empty again at the start of each top-level call (the source's
`add`/`delete` bracket leaves it empty). -/
def addRequested (steps : List Step) :
    List String → List String → Except String (List String)
  | [], needed => Except.ok needed
  | name :: rest, needed =>
    match addWithDeps steps (steps.length + 1) name needed [] with
    | Except.error e => Except.error e
    | Except.ok needed' => addRequested steps rest needed'

/-- `resolveStepsWithDeps(steps, requestedNames)` from `src/graph.ts`. -/
def resolveStepsWithDeps (steps : List Step) (requestedNames : List String) :
    Except String (List Step) :=
  match addRequested steps requestedNames [] with
  | Except.error e => Except.error e
  | Except.ok needed => Except.ok (steps.filter fun s => needed.contains s.name)

/-- Transitive reachability along `dependsOn` edges: the names of the steps
a requested name pulls in (the name itself and, recursively, the
dependencies of every reached step found in the step map). -/
inductive DepReaches (steps : List Step) (a : String) : String → Prop where
  | refl : DepReaches steps a a
  | tail {b c : String} (hab : DepReaches steps a b) (st : Step)
      (hst : stepMapGet steps b = some st) (hc : c ∈ stepDeps st) :
      DepReaches steps a c

/-- A dependency-closed name set: with every member, it contains the
dependencies of that member's step. -/
def DepClosed (steps : List Step) (needed : List String) : Prop :=
  ∀ x ∈ needed, ∀ st, stepMapGet steps x = some st →
    ∀ d ∈ stepDeps st, d ∈ needed

/-! ## `src/actions/cmd.ts` — the layer-by-layer workspace-script executor

`runBunAction` iterates the layers produced by `topologicalSort`; empty
layers are skipped (`continue`); within a layer all tasks are started and
`await Promise.all` settles them all before the loop continues; when any
result of the layer failed, the loop `break`s before starting the next
layer.  The concurrency structure is modelled as the event trace this
control flow emits: per executed layer, one `start` event per task followed
by one `settle` event per task (the `await Promise.all` synchronisation
point guarantees every settle of a layer precedes the code that starts the
next one; the interleaving of starts and settles *within* a layer is not
constrained by the claims).  Task outcomes are an oracle
`exec : TaskNode → Bool`. -/

/-- An observable scheduling event of the executor. -/
inductive TaskEv where
  | start : String → TaskEv
  | settle : String → Bool → TaskEv
deriving DecidableEq, Repr

/-- The events of one executed layer: all starts, then all settles. -/
def layerEvents (exec : TaskNode → Bool) (layer : List TaskNode) : List TaskEv :=
  (layer.map fun n => TaskEv.start (taskId n)) ++
  (layer.map fun n => TaskEv.settle (taskId n) (exec n))

/-- The trace of the executor's `for (const layer of layers)` loop: skip
empty layers, run a layer to completion, stop after the first layer
containing a failure (`if (!totalSuccess) break`). -/
def runTrace (exec : TaskNode → Bool) : List (List TaskNode) → List TaskEv
  | [] => []
  | layer :: rest =>
    if layer.isEmpty then runTrace exec rest
    else
      layerEvents exec layer ++
      (if layer.all exec then runTrace exec rest else [])

/-! ## `src/git/worktree.ts` — path-safe copying between worktrees

`WorktreeManager.copy` parses `[BRANCH@]PATH` specs, resolves each side's
worktree root, resolves source and destination through `resolveSafePath`
(which normalises with `path.resolve` and rejects results outside the
worktree root), and only then touches the filesystem.  The model makes the
effects explicit: `fsExists` is the `existsSync` oracle, `scan` is the
`Bun.Glob(...).scanSync` oracle (the absolute matches for the source base
path), and the result records every `cp` destination (`files`, as
source/destination pairs), every `mkdirSync` target (`dirs`), and the thrown
error, if any (`err`); an error thrown mid-way stops the run, so later
writes are absent from the record.  `path.resolve` is modelled for the only
call shape the manager uses — a base path followed by relative parts; when
even the base is relative, node would prepend `process.cwd()`, modelled here
as the filesystem root.  `path.join(dest, rel)` is modelled as plain
`/`-concatenation: its normalisation is deferred to the subsequent
`path.resolve`, which produces the same resolved path. -/

/-- One entry of `git worktree list`, restricted to the fields `copy`
reads.  Paths and branch names are in the `List Char` string model. -/
structure WorktreeInfo where
  path : List Char
  branch : List Char
deriving DecidableEq, Repr

/-- Segment-wise normalisation of an absolute path: empty segments and `.`
disappear, `..` pops (clamped at the root), as `path.resolve` does. -/
def normSegs (segs : List (List Char)) : List (List Char) :=
  segs.foldl
    (fun acc s =>
      if s = [] ∨ s = ['.'] then acc
      else if s = strChars ".." then acc.dropLast
      else acc ++ [s]) []

/-- Whether a path is absolute. -/
def isAbs (s : List Char) : Bool := ['/'].isPrefixOf s

/-- Normalise a string that starts (conceptually) at the root. -/
def absNorm (s : List Char) : List Char :=
  '/' :: List.intercalate ['/'] (normSegs (splitChars '/' s))

/-- `path.resolve(a, b, c)`: the right-most absolute argument wins and the
rest is appended and normalised.  (All call sites pass an absolute `a`.) -/
def resolve3 (a b c : List Char) : List Char :=
  if isAbs c then absNorm c
  else if isAbs b then absNorm (b ++ '/' :: c)
  else if isAbs a then absNorm (a ++ '/' :: b ++ '/' :: c)
  else absNorm ('/' :: a ++ '/' :: b ++ '/' :: c)

/-- `resolveSafePath(worktreeRoot, relativePath, cwd)` (with the manager's
`gitRoot`): prefix `cwd`'s position under the git root, resolve, and reject
any result that escapes the worktree root. -/
def resolveSafePath (gitRoot worktreeRoot relativePath cwd : List Char) :
    Except (List Char) (List Char) :=
  let relativeDir :=
    if gitRoot.isPrefixOf cwd then
      let r := cwd.drop gitRoot.length
      if ['/'].isPrefixOf r then r.drop 1 else r
    else []
  let fullPath := resolve3 worktreeRoot relativeDir relativePath
  if (worktreeRoot ++ ['/']).isPrefixOf fullPath ∨ fullPath = worktreeRoot then
    Except.ok fullPath
  else
    Except.error (strChars "Path traversal detected: " ++ relativePath ++
      strChars " resolves outside worktree")

/-- A parsed `[BRANCH@]PATH` spec. -/
structure PathSpec where
  branch : Option (List Char)
  path : List Char
deriving DecidableEq, Repr

/-- `parsePathSpec(spec)`: split at the first `@`, if any. -/
def parsePathSpec (spec : List Char) : PathSpec :=
  match splitChars '@' spec with
  | [p] => ⟨none, p⟩
  | p :: rest => ⟨some p, List.intercalate ['@'] rest⟩
  | [] => ⟨none, spec⟩

/-- `getWorktreeRoot(branch)`: the manager's git root when no branch is
named, else the named branch's worktree path. -/
def getWorktreeRoot (gitRoot : List Char) (worktrees : List WorktreeInfo)
    (branch : Option (List Char)) : Except (List Char) (List Char) :=
  match branch with
  | none => Except.ok gitRoot
  | some b =>
    match worktrees.find? fun w => w.branch == b with
    | some w => Except.ok w.path
    | none => Except.error (strChars "No worktree found for branch: " ++ b)

/-- `destPath.substring(0, destPath.lastIndexOf("/"))`: the text before the
last slash (empty when there is none, as in JavaScript). -/
def dirnamePart (p : List Char) : List Char :=
  (((p.reverse).dropWhile fun c => c ≠ '/').drop 1).reverse

/-- `path.join(a, b)` as used for the glob destination; normalisation is
deferred to the subsequent resolve, which yields the same resolved path. -/
def joinRel (a b : List Char) : List Char :=
  if a = [] then b else if b = [] then a else a ++ '/' :: b

/-- The record of a `copy` run's filesystem effects. -/
structure CopyResult where
  files : List (List Char × List Char)
  dirs : List (List Char)
  err : Option (List Char)
deriving DecidableEq, Repr

/-- The glob branch's `for (const match of matches)` loop: each match's
destination is safety-checked before its directory is created and the copy
performed; the first failing check stops the loop with the error. -/
def copyGlobLoop (gitRoot destRoot destSpecPath cwd srcBasePath : List Char)
    (fsExists : List Char → Bool) : List (List Char) → CopyResult
  | [] => ⟨[], [], none⟩
  | mtch :: restMatches =>
    let relPath := mtch.drop (srcBasePath.length + 1)
    match resolveSafePath gitRoot destRoot (joinRel destSpecPath relPath) cwd with
    | Except.error e => ⟨[], [], some e⟩
    | Except.ok destPath =>
      let r := copyGlobLoop gitRoot destRoot destSpecPath cwd srcBasePath
        fsExists restMatches
      { files := (mtch, destPath) :: r.files
        dirs := (if fsExists (dirnamePart destPath) then []
          else [dirnamePart destPath]) ++ r.dirs
        err := r.err }

/-- `WorktreeManager.copy(src, dest, cwd)` from `src/git/worktree.ts`. -/
def copy (gitRoot : List Char) (worktrees : List WorktreeInfo)
    (fsExists : List Char → Bool) (scan : List Char → List (List Char))
    (src dest cwd : List Char) : CopyResult :=
  let srcSpec := parsePathSpec src
  let destSpec := parsePathSpec dest
  match getWorktreeRoot gitRoot worktrees srcSpec.branch with
  | Except.error e => ⟨[], [], some e⟩
  | Except.ok srcRoot =>
    match getWorktreeRoot gitRoot worktrees destSpec.branch with
    | Except.error e => ⟨[], [], some e⟩
    | Except.ok destRoot =>
      if srcSpec.path.contains '*' then
        match resolveSafePath gitRoot srcRoot [] cwd with
        | Except.error e => ⟨[], [], some e⟩
        | Except.ok srcBasePath =>
          copyGlobLoop gitRoot destRoot destSpec.path cwd srcBasePath fsExists
            (scan srcBasePath)
      else
        match resolveSafePath gitRoot srcRoot srcSpec.path cwd with
        | Except.error e => ⟨[], [], some e⟩
        | Except.ok srcPath =>
          match resolveSafePath gitRoot destRoot destSpec.path cwd with
          | Except.error e => ⟨[], [], some e⟩
          | Except.ok destPath =>
            if fsExists srcPath then
              { files := [(srcPath, destPath)]
                dirs := if fsExists (dirnamePart destPath) then []
                  else [dirnamePart destPath]
                err := none }
            else
              ⟨[], [], some (strChars "Source path does not exist: " ++ srcPath)⟩

/-! ## Theorems -/

/-- Helper: `globMatch` agrees with the declarative relation `GlobMatches`. -/
theorem globMatch_iff_globMatches (p : List GlobTok) (s : List Char) :
    globMatch p s = true ↔ GlobMatches p s := by
  induction p generalizing s with
  | nil =>
    simp only [globMatch, List.isEmpty_iff]
    constructor
    · rintro rfl; exact GlobMatches.nil
    · rintro h; cases h; rfl
  | cons t p ih =>
    cases t with
    | lit c =>
      cases s with
      | nil =>
        simp only [globMatch]
        constructor
        · intro h; cases h
        · intro h; cases h
      | cons d s' =>
        simp only [globMatch, Bool.and_eq_true, beq_iff_eq]
        constructor
        · rintro ⟨rfl, h⟩; exact GlobMatches.lit ((ih s').1 h)
        · intro h; cases h with
          | lit h' => exact ⟨rfl, (ih s').2 h'⟩
    | anyChar =>
      cases s with
      | nil =>
        simp only [globMatch]
        constructor
        · intro h; cases h
        · intro h; cases h
      | cons d s' =>
        simp only [globMatch]
        constructor
        · intro h; exact GlobMatches.anyChar ((ih s').1 h)
        · intro h; cases h with
          | anyChar h' => exact (ih s').2 h'
    | star =>
      simp only [globMatch, List.any_eq_true]
      constructor
      · rintro ⟨s', hs', hm⟩
        have hsuffix : s' <:+ s := by
          simpa using (List.mem_tails s' s).1 hs'
        obtain ⟨pre, rfl⟩ := hsuffix
        clear hs'
        induction pre with
        | nil => exact GlobMatches.starEmpty ((ih s').1 hm)
        | cons c pre ihp => exact GlobMatches.starCons ihp
      · intro h
        generalize hq : GlobTok.star :: p = q at h
        induction h with
        | nil => cases hq
        | lit h' _ => cases hq
        | anyChar h' _ => cases hq
        | starEmpty h' =>
          cases hq
          exact ⟨_, (List.mem_tails _ _).2 (List.suffix_refl _), (ih _).2 h'⟩
        | starCons _ ihh =>
          cases hq
          obtain ⟨s', hs', hm⟩ := ihh rfl
          refine ⟨s', ?_, hm⟩
          have : s' <:+ _ := (List.mem_tails _ _).1 hs'
          exact (List.mem_tails _ _).2 (this.trans (List.suffix_cons _ _))

/-- Helper: `star` means "any run of characters": the rest of the pattern
matches some suffix. -/
theorem globMatches_star_iff (p : List GlobTok) (s : List Char) :
    GlobMatches (GlobTok.star :: p) s ↔ ∃ t u, s = t ++ u ∧ GlobMatches p u := by
  constructor
  · intro h
    generalize hq : GlobTok.star :: p = q at h
    induction h with
    | nil => cases hq
    | lit h' _ => cases hq
    | anyChar h' _ => cases hq
    | starEmpty h' => cases hq; exact ⟨[], _, rfl, h'⟩
    | starCons _ ihh =>
      cases hq
      obtain ⟨t, u, rfl, hm⟩ := ihh rfl
      exact ⟨_ :: t, u, rfl, hm⟩
  · rintro ⟨t, u, rfl, hm⟩
    induction t with
    | nil => exact GlobMatches.starEmpty hm
    | cons c t iht => exact GlobMatches.starCons iht

/-- Helper: a pattern has `"!"` as a prefix exactly when it starts with the
character `'!'`. -/
theorem bang_isPrefixOf_iff (p : List Char) :
    ['!'].isPrefixOf p = true ↔ ∃ t, p = '!' :: t := by
  cases p with
  | nil => simp [List.isPrefixOf]
  | cons a t =>
    simp only [List.isPrefixOf, Bool.and_eq_true, beq_iff_eq]
    constructor
    · rintro ⟨rfl, -⟩; exact ⟨t, rfl⟩
    · rintro ⟨t', h⟩; cases h; exact ⟨rfl, by simp [List.isPrefixOf]⟩

/-- Helper: the `"worktree:"` special-prefix test fails on a negation
pattern, so a `'!'`-headed pattern always reaches the negation branch of
`matchBranchPattern`. -/
theorem worktreeMarker_not_isPrefixOf_bang (rest : List Char) :
    worktreeMarker.isPrefixOf ('!' :: rest) = false := by
  simp [worktreeMarker, strChars, List.isPrefixOf]

/-- Helper: on a negation pattern, `matchBranchPattern` is the negated plain
glob match of the rest of the pattern, for either worktree flag. -/
theorem matchBranchPattern_bang (B rest : List Char) (F : Bool) :
    matchBranchPattern B ('!' :: rest) F = !matchGlob B rest := by
  unfold matchBranchPattern
  rw [if_neg (by simp [worktreeMarker_not_isPrefixOf_bang])]
  rw [if_pos (by simp [List.isPrefixOf])]
  rfl

/-- C8 (counterexample): the claim says every pattern character other than
`*` and `?` — including `.` — matches only itself.  On the code, a `.` in the
pattern is an unescaped regex dot and matches any character: `"axb"` matches
pattern `"a.b"`, while the spec-described literal-dot matcher rejects it. -/
theorem C8_matchGlob_counterexample :
    matchGlob (strChars "axb") (strChars "a.b") = true ∧
    matchGlobLiteralDot (strChars "axb") (strChars "a.b") = false := by
  constructor <;> rfl

/-- C8 (amended): `matchGlob` builds its `RegExp` with no escaping, so every
regex metacharacter keeps its regex meaning — not only `.` (the
counterexample) but also `regexMeta` (`+`, parentheses, brackets, braces,
`|`, `^`, `$`, `\`), which the token model does not attempt to represent.
On the fragment where the compilation is pure glob — patterns free of
`regexMeta` (`safeGlobPattern`) and texts on which `.` consumes exactly one
character (`plainText`) — `matchGlob` is anchored full-string matching in
which `*` matches any run of characters, `?` **and `.`** each match exactly
one arbitrary character, and every other pattern character matches only
itself, as the declarative relation `GlobMatches` states; `star` means "some
split into a run and a suffix".  The claim's three concrete examples lie in
the fragment and hold as stated. -/
theorem C8_matchGlob_amended :
    (∀ text pattern : List Char, safeGlobPattern pattern = true →
      plainText text = true →
      (matchGlob text pattern = true ↔ GlobMatches (globTokens pattern) text)) ∧
    (∀ (p : List GlobTok) (s : List Char),
      GlobMatches (GlobTok.star :: p) s ↔ ∃ t u, s = t ++ u ∧ GlobMatches p u) ∧
    matchGlob (strChars "feature-123") (strChars "feature-*") = true ∧
    matchGlob (strChars "v12") (strChars "v?") = false ∧
    matchGlob (strChars "release-v1.0") (strChars "release-v?.?") = true := by
  refine ⟨fun text pattern _ _ => globMatch_iff_globMatches _ _,
    fun p s => globMatches_star_iff p s, ?_, ?_, ?_⟩ <;> rfl

/-- C8's amended fragment at a concrete input: `"feature-*"` is a safe
pattern, `"feature-123"` a plain text, and the match characterisation holds
there. -/
theorem C8_matchGlob_amended_witness :
    safeGlobPattern (strChars "feature-*") = true ∧
    plainText (strChars "feature-123") = true ∧
    (matchGlob (strChars "feature-123") (strChars "feature-*") = true ↔
      GlobMatches (globTokens (strChars "feature-*")) (strChars "feature-123")) :=
  ⟨by decide, by decide,
    C8_matchGlob_amended.1 (strChars "feature-123") (strChars "feature-*")
      (by decide) (by decide)⟩

/-- C4: the branch predicate.  `shouldRunOnBranch` is true when the pattern
list is absent or empty; otherwise it is false when some negation `!PAT` has
`PAT` glob-matching the branch, and otherwise true iff there is no positive
pattern or some positive pattern matches.  The claim's concrete examples:
`["feature-*", "!main"]` runs on `feature-123` but not on `main` or
`develop`. -/
theorem C4_shouldRunOnBranch :
    (∀ B F, shouldRunOnBranch none B F = true) ∧
    (∀ B F, shouldRunOnBranch (some []) B F = true) ∧
    (∀ (bs : List (List Char)) (B : List Char) (F : Bool), bs ≠ [] →
      (shouldRunOnBranch (some bs) B F = true ↔
        ((∀ p ∈ bs, ['!'].isPrefixOf p = true → matchGlob B (p.drop 1) = false) ∧
         ((∀ p ∈ bs, ['!'].isPrefixOf p = true) ∨
          (∃ p ∈ bs, ['!'].isPrefixOf p = false ∧ matchBranchPattern B p F = true))))) ∧
    shouldRunOnBranch (some [strChars "feature-*", strChars "!main"])
      (strChars "feature-123") false = true ∧
    shouldRunOnBranch (some [strChars "feature-*", strChars "!main"])
      (strChars "main") false = false ∧
    shouldRunOnBranch (some [strChars "feature-*", strChars "!main"])
      (strChars "develop") false = false := by
  refine ⟨fun B F => rfl, fun B F => rfl, ?_, by rfl, by rfl, by rfl⟩
  intro bs B F hbs
  have hnegs : ((bs.filter fun b => ['!'].isPrefixOf b).all
      (fun neg => matchBranchPattern B neg F)) = true ↔
      (∀ p ∈ bs, ['!'].isPrefixOf p = true → matchGlob B (p.drop 1) = false) := by
    simp only [List.all_eq_true, List.mem_filter]
    constructor
    · intro h p hp hbang
      have hm := h p ⟨hp, hbang⟩
      obtain ⟨t, rfl⟩ := (bang_isPrefixOf_iff p).1 hbang
      rw [matchBranchPattern_bang] at hm
      simpa using hm
    · intro h p hp
      obtain ⟨t, rfl⟩ := (bang_isPrefixOf_iff p).1 hp.2
      rw [matchBranchPattern_bang]
      have := h _ hp.1 hp.2
      simpa using this
  have hany : ((bs.filter fun b => !(['!'].isPrefixOf b)).any
      (fun p => matchBranchPattern B p F)) = true ↔
      (∃ p ∈ bs, ['!'].isPrefixOf p = false ∧ matchBranchPattern B p F = true) := by
    simp only [List.any_eq_true, List.mem_filter, Bool.not_eq_true']
    constructor
    · rintro ⟨p, ⟨hp, hnb⟩, hm⟩; exact ⟨p, hp, hnb, hm⟩
    · rintro ⟨p, hp, hnb, hm⟩; exact ⟨p, ⟨hp, hnb⟩, hm⟩
  have hlen : (0 < (bs.filter fun b => !(['!'].isPrefixOf b)).length) ↔
      ¬(∀ p ∈ bs, ['!'].isPrefixOf p = true) := by
    rw [List.length_pos, Ne, List.filter_eq_nil_iff]
    constructor
    · intro h hall
      exact h fun a ha => by simp [hall a ha]
    · intro h hforall
      apply h
      intro p hp
      have hq := hforall p hp
      simpa using hq
  show (if bs.isEmpty then true
    else if (bs.filter fun b => ['!'].isPrefixOf b).all
        (fun neg => matchBranchPattern B neg F) then
      if 0 < (bs.filter fun b => !(['!'].isPrefixOf b)).length then
        (bs.filter fun b => !(['!'].isPrefixOf b)).any
          (fun p => matchBranchPattern B p F)
      else true
    else false) = true ↔ _
  rw [if_neg (by simpa [List.isEmpty_iff] using hbs)]
  by_cases h1 : ((bs.filter fun b => ['!'].isPrefixOf b).all
      (fun neg => matchBranchPattern B neg F)) = true
  · rw [if_pos h1]
    by_cases h2 : 0 < (bs.filter fun b => !(['!'].isPrefixOf b)).length
    · rw [if_pos h2]
      rw [hany]
      constructor
      · intro hex
        exact ⟨hnegs.1 h1, Or.inr hex⟩
      · rintro ⟨-, hor⟩
        cases hor with
        | inl hall => exact absurd hall (hlen.1 h2)
        | inr hex => exact hex
    · rw [if_neg h2]
      constructor
      · intro _
        refine ⟨hnegs.1 h1, Or.inl ?_⟩
        by_contra hnall
        exact h2 (hlen.2 hnall)
      · intro _
        rfl
  · rw [if_neg h1]
    constructor
    · intro hf
      cases hf
    · rintro ⟨hneg, -⟩
      exact absurd (hnegs.2 hneg) h1

/-- C4 witness: the branch-filter characterisation applied to the concrete
list `["feature-*", "!main"]` on branch `develop`. -/
theorem C4_shouldRunOnBranch_witness :
    shouldRunOnBranch (some [strChars "feature-*", strChars "!main"])
      (strChars "develop") false = false := by
  have h := C4_shouldRunOnBranch.2.2.1
    [strChars "feature-*", strChars "!main"] (strChars "develop") false
    (by decide)
  rw [← Bool.not_eq_true]
  rw [h]
  decide

/-- C10: the `inWorktree` flag never affects a negation pattern.  A pattern
starting with `'!'` is evaluated as the negated literal glob of the rest
(even when the rest begins with `worktree:`), independently of the flag, and
the negation check of `shouldRunOnBranch` is likewise flag-independent. -/
theorem C10_negation_ignores_worktree_flag :
    (∀ (B rest : List Char) (F F' : Bool),
      matchBranchPattern B ('!' :: rest) F = matchBranchPattern B ('!' :: rest) F') ∧
    (∀ (B rest : List Char) (F : Bool),
      matchBranchPattern B ('!' :: rest) F = !matchGlob B rest) ∧
    (∀ (B : List Char) (X : List Char) (F : Bool),
      matchBranchPattern B ('!' :: (worktreeMarker ++ X)) F =
        !matchGlob B (worktreeMarker ++ X)) ∧
    (∀ (bs : List (List Char)) (B : List Char) (F F' : Bool),
      ((bs.filter fun b => ['!'].isPrefixOf b).all
        (fun neg => matchBranchPattern B neg F)) =
      ((bs.filter fun b => ['!'].isPrefixOf b).all
        (fun neg => matchBranchPattern B neg F'))) := by
  refine ⟨fun B rest F F' => ?_, matchBranchPattern_bang,
    fun B X F => matchBranchPattern_bang B _ F, fun bs B F F' => ?_⟩
  · rw [matchBranchPattern_bang, matchBranchPattern_bang]
  · rw [Bool.eq_iff_iff]
    simp only [List.all_eq_true]
    constructor
    · intro h p hp
      obtain ⟨-, hbang⟩ := List.mem_filter.1 hp
      obtain ⟨t, rfl⟩ := (bang_isPrefixOf_iff p).1 hbang
      have hq := h _ hp
      rw [matchBranchPattern_bang] at hq
      rw [matchBranchPattern_bang]
      exact hq
    · intro h p hp
      obtain ⟨-, hbang⟩ := List.mem_filter.1 hp
      obtain ⟨t, rfl⟩ := (bang_isPrefixOf_iff p).1 hbang
      have hq := h _ hp
      rw [matchBranchPattern_bang] at hq
      rw [matchBranchPattern_bang]
      exact hq

/-- Helper: the line pass is the identity on texts containing no `//`. -/
theorem stripLineAux_eq_self (s : List Char) (h : hasSlashSlash s = false) :
    stripLineAux false s = s := by
  induction s with
  | nil => rfl
  | cons c rest ih =>
    cases rest with
    | nil => rfl
    | cons c2 rest' =>
      simp only [hasSlashSlash, Bool.or_eq_false_iff, Bool.and_eq_false_iff,
        decide_eq_false_iff_not] at h
      have hcond : ¬(c = '/' ∧ c2 = '/') := by
        rcases h.1 with h' | h' <;> intro hc <;> [exact h' hc.1; exact h' hc.2]
      simp only [stripLineAux, if_neg hcond]
      rw [ih h.2]

/-- Helper: the block pass is the identity on texts containing no `/*`. -/
theorem stripBlockGo_eq_self (s : List Char) (h : hasSlashStar s = false) :
    stripBlockGo false s = s := by
  induction s with
  | nil => rfl
  | cons c rest ih =>
    cases rest with
    | nil => rfl
    | cons c2 rest' =>
      simp only [hasSlashStar, Bool.or_eq_false_iff, Bool.and_eq_false_iff,
        decide_eq_false_iff_not] at h
      have hcond : ¬(c = '/' ∧ c2 = '*') := by
        rcases h.1 with h' | h' <;> intro hc <;> [exact h' hc.1; exact h' hc.2]
      simp only [stripBlockGo, if_neg hcond]
      rw [ih h.2]

/-- C9 (counterexample): the claim says comment stripping is the identity on
every valid comment-free JSON text, including ones whose string literals
contain `//`.  The text `{"url": "http://x"}` is valid JSON with no comments,
yet the line pass truncates it at the `//` inside the string literal. -/
theorem C9_stripJsonComments_counterexample :
    stripJsonComments (strChars "\x7b\"url\": \"http://x\"\x7d") =
      strChars "\x7b\"url\": \"http:" ∧
    stripJsonComments (strChars "\x7b\"url\": \"http://x\"\x7d") ≠
      strChars "\x7b\"url\": \"http://x\"\x7d" := by
  constructor
  · rfl
  · decide

/-- C9 (amended): `stripJsonComments` is the identity on every text that
contains neither the character sequence `//` nor the sequence `/*` — in
particular on comment-free JSON whose string literals avoid those two
sequences.  (JSON whose string literals do contain them may be corrupted, as
the counterexample shows.) -/
theorem C9_stripJsonComments_amended (s : List Char)
    (h1 : hasSlashSlash s = false) (h2 : hasSlashStar s = false) :
    stripJsonComments s = s := by
  unfold stripJsonComments stripBlockComments stripLineComments
  rw [stripLineAux_eq_self s h1, stripBlockGo_eq_self s h2]

/-- C9 witness: the amended identity applied to the concrete comment-free
JSON text `{"key": "value"}` from the repository's own test-suite. -/
theorem C9_stripJsonComments_witness :
    stripJsonComments (strChars "\x7b\"key\": \"value\"\x7d") =
      strChars "\x7b\"key\": \"value\"\x7d" :=
  C9_stripJsonComments_amended (strChars "\x7b\"key\": \"value\"\x7d")
    (by decide) (by decide)

/-- Helper: splitting a text without the separator yields one group. -/
theorem splitChars_no_sep (sep : Char) (X : List Char) (hX : sep ∉ X) :
    splitChars sep X = [X] := by
  induction X with
  | nil => rfl
  | cons c rest ih =>
    have hc : ¬(c = sep) := fun h => hX (h ▸ List.mem_cons_self c rest)
    have hrest : sep ∉ rest := fun h => hX (List.mem_cons_of_mem c h)
    simp only [splitChars, if_neg hc, ih hrest]

/-- Helper: splitting `X#Y` with separator-free `X` and `Y` yields exactly
the two groups. -/
theorem splitChars_append (sep : Char) (X Y : List Char)
    (hX : sep ∉ X) (hY : sep ∉ Y) :
    splitChars sep (X ++ sep :: Y) = [X, Y] := by
  induction X with
  | nil =>
    simp [splitChars, splitChars_no_sep sep Y hY]
  | cons c rest ih =>
    have hc : ¬(c = sep) := fun h => hX (h ▸ List.mem_cons_self c rest)
    have hrest : sep ∉ rest := fun h => hX (List.mem_cons_of_mem c h)
    rw [List.cons_append]
    simp only [splitChars, if_neg hc]
    rw [ih hrest]

/-- C5: the shape of the task DAG produced by `resolveTaskDependencies`.
For every package `P` with the script there is one node `P#script`, whose
dependency list consists of the caret-induced tasks `D#script` (for workspace
dependencies `D` of `P` that exist and have the script) when some spec starts
with `^`, together with the specs of the form `X#Y` (with `X`, `Y` non-empty
and `#`-free) such that package `X` exists and has script `Y`.  The claim's
concrete scenario (`engine`, `internals`, `hcl` with `dependsOn = ["^test"]`)
produces exactly the three stated nodes. -/
theorem C5_resolveTaskDependencies :
    (∀ (script : String) (dependsOn : List String)
        (packages : List WorkspacePackage) (graph : List (String × List String)),
      (∀ d ∈ dependsOn, d.data.contains '#' = true →
        ∃ X Y : List Char, '#' ∉ X ∧ '#' ∉ Y ∧ X ≠ [] ∧ Y ≠ [] ∧
          d.data = X ++ '#' :: Y) →
      ∀ pkg ∈ packages, scriptsHas pkg script = true →
      ∃ node, node ∈ resolveTaskDependencies script dependsOn packages graph ∧
        node.packageName = pkg.name ∧ node.packagePath = pkg.path ∧
        node.script = script ∧
        (∀ d : String, d ∈ node.dependencies ↔
          (((∃ spec ∈ dependsOn, ['^'].isPrefixOf spec.data = true) ∧
            ∃ D P, D ∈ (graphGet graph pkg.name).getD [] ∧
              pkgMapGet packages D = some P ∧ scriptsHas P script = true ∧
              d = D ++ "#" ++ script) ∨
           (d ∈ dependsOn ∧
            ∃ X Y : List Char, '#' ∉ X ∧ '#' ∉ Y ∧ X ≠ [] ∧ Y ≠ [] ∧
              d.data = X ++ '#' :: Y ∧
              ∃ P, pkgMapGet packages (String.mk X) = some P ∧
                scriptsHas P (String.mk Y) = true)))) ∧
    resolveTaskDependencies "test" ["^test"] scenarioPkgs
        (buildDependencyGraph scenarioPkgs) =
      [⟨"engine", "packages/engine", "test", ["internals#test"]⟩,
       ⟨"internals", "packages/internals", "test", []⟩,
       ⟨"hcl", "packages/hcl", "test", ["internals#test"]⟩] := by
  constructor
  · intro script dependsOn packages graph hwf pkg hpkg hscript
    refine ⟨_, List.mem_map.2 ⟨pkg, List.mem_filter.2 ⟨hpkg, hscript⟩, rfl⟩,
      rfl, rfl, rfl, ?_⟩
    intro d
    rw [List.mem_append]
    constructor
    · rintro (hcaret | hspec)
      · left
        by_cases hc : dependsOn.any (fun d => ['^'].isPrefixOf d.data) = true
        · rw [if_pos hc] at hcaret
          obtain ⟨D, hD, hf⟩ := List.mem_filterMap.1 hcaret
          refine ⟨List.any_eq_true.1 hc, D, ?_⟩
          split at hf
          · rename_i P hP
            split at hf
            · rename_i hs
              exact ⟨P, hD, hP, hs, (Option.some_injective _ hf).symm⟩
            · cases hf
          · cases hf
        · rw [if_neg hc] at hcaret; cases hcaret
      · right
        obtain ⟨hmem1, hcond⟩ := List.mem_filter.1 hspec
        obtain ⟨hdep, hhash⟩ := List.mem_filter.1 hmem1
        obtain ⟨X, Y, hX, hY, hXne, hYne, hdata⟩ := hwf d hdep hhash
        rw [hdata, splitChars_append '#' X Y hX hY] at hcond
        simp only [List.getD_cons_zero, List.getD_cons_succ] at hcond
        rw [if_pos ⟨hXne, hYne⟩] at hcond
        refine ⟨hdep, X, Y, hX, hY, hXne, hYne, hdata, ?_⟩
        split at hcond
        · rename_i P hP
          exact ⟨P, hP, hcond⟩
        · cases hcond
    · rintro (⟨hex, D, P, hD, hP, hs, rfl⟩ | ⟨hdep, X, Y, hX, hY, hXne, hYne, hdata, P, hP, hs⟩)
      · left
        rw [if_pos (List.any_eq_true.2 hex)]
        refine List.mem_filterMap.2 ⟨D, hD, ?_⟩
        simp [hP, hs]
      · right
        refine List.mem_filter.2 ⟨List.mem_filter.2 ⟨hdep, ?_⟩, ?_⟩
        · rw [hdata]
          simp
        · rw [hdata, splitChars_append '#' X Y hX hY]
          simp only [List.getD_cons_zero, List.getD_cons_succ]
          rw [if_pos ⟨hXne, hYne⟩]
          simp [hP, hs]
  · rfl

/-- C5 witness: the dependency characterisation applied to the concrete
scenario for package `engine` — the well-formedness hypothesis of the specs
and the package-membership hypotheses are discharged on the concrete data. -/
theorem C5_resolveTaskDependencies_witness :
    ∃ node, node ∈ resolveTaskDependencies "test" ["^test"] scenarioPkgs
        (buildDependencyGraph scenarioPkgs) ∧
      node.packageName = "engine" ∧ node.packagePath = "packages/engine" ∧
      node.script = "test" := by
  obtain ⟨node, hmem, h1, h2, h3, -⟩ :=
    C5_resolveTaskDependencies.1 "test" ["^test"] scenarioPkgs
      (buildDependencyGraph scenarioPkgs)
      (by
        intro d hd hc
        have hd' : d = "^test" := by simpa using hd
        subst hd'
        exact absurd hc (by decide))
      enginePkg (by simp [scenarioPkgs]) (by decide)
  exact ⟨node, hmem, h1, h2, h3⟩

/-- Helper: removing the elements on which `p` holds shortens the list when
some member satisfies `p`. -/
theorem length_filter_not_lt {α : Type} (l : List α) (p : α → Bool) (x : α)
    (hx : x ∈ l) (hpx : p x = true) :
    (l.filter fun y => !(p y)).length < l.length := by
  induction l with
  | nil => cases hx
  | cons a t ih =>
    by_cases hpa : p a = true
    · have : (List.filter (fun y => !(p y)) (a :: t)) =
        List.filter (fun y => !(p y)) t := by
        simp [List.filter_cons, hpa]
      rw [this]
      have := List.length_filter_le (fun y => !(p y)) t
      simp only [List.length_cons]
      omega
    · rcases List.mem_cons.1 hx with rfl | hxt
      · exact absurd hpx hpa
      · have : (List.filter (fun y => !(p y)) (a :: t)) =
          a :: List.filter (fun y => !(p y)) t := by
          simp [List.filter_cons, hpa]
        rw [this]
        simpa using ih hxt
/-- Helper: the members of a JavaScript `Set` built from a list are members
of the list. -/
theorem dedupFirstAux_subset (seen l : List String) :
    ∀ x ∈ dedupFirstAux seen l, x ∈ l := by
  induction l generalizing seen with
  | nil => intro x hx; cases hx
  | cons a t ih =>
    intro x hx
    by_cases hs : seen.contains a
    · rw [dedupFirstAux, if_pos hs] at hx
      exact List.mem_cons_of_mem a (ih seen x hx)
    · rw [dedupFirstAux, if_neg hs] at hx
      rcases List.mem_cons.1 hx with rfl | hxt
      · exact List.mem_cons_self _ _
      · exact List.mem_cons_of_mem a (ih _ x hxt)

/-- Helper: once `remaining` is empty it stays empty under loop rounds. -/
theorem iterate_stepState_nil (nodes : List TaskNode)
    (st : List String × (String → Int)) (h : st.1 = []) (k : Nat) :
    ((stepState nodes)^[k] st).1 = [] := by
  induction k generalizing st with
  | zero => simpa using h
  | succ k ih =>
    rw [Function.iterate_succ_apply]
    exact ih _ (by simp [stepState, h])

/-- Helper: if some later round of the loop is stuck, `sortGo` returns the
`Circular dependency` error, whose payload enumerates the remaining IDs of
the (first) stuck round — all of them IDs of input nodes. -/
theorem sortGo_error_of_stuck (nodes : List TaskNode) (fuel : Nat) :
    ∀ st : List String × (String → Int),
      st.1.length < fuel →
      (∀ id ∈ st.1, id ∈ nodes.map taskId) →
      (∃ k, Stuck nodes ((stepState nodes)^[k] st)) →
      ∃ rem, rem ≠ [] ∧ (∀ id ∈ rem, id ∈ nodes.map taskId) ∧
        sortGo nodes fuel st.1 st.2 = Except.error (cycleMsg rem) := by
  induction fuel with
  | zero =>
    intro st hlen
    omega
  | succ fuel ih =>
    rintro st hlen hsub ⟨k, hk⟩
    by_cases hemp : st.1.isEmpty = true
    · exfalso
      have h1 : st.1 = [] := List.isEmpty_iff.1 hemp
      exact hk.1 (iterate_stepState_nil nodes st h1 k)
    · by_cases hlay : (collectLayerIds nodes st.1 st.2).isEmpty = true
      · refine ⟨st.1, fun h => hemp (by simp [h]), hsub, ?_⟩
        simp only [sortGo]
        rw [if_neg (by simp [hemp]), if_pos hlay]
      · cases k with
        | zero =>
          exact absurd (hk.2) (by simpa [List.isEmpty_iff] using hlay)
        | succ k =>
          rw [Function.iterate_succ_apply] at hk
          have hne : ∃ x ∈ st.1,
              (st.2 x == 0 && (nodeMapGet nodes x).isSome) = true := by
            by_contra hcon
            apply hlay
            rw [List.isEmpty_iff, collectLayerIds, List.filter_eq_nil_iff]
            push_neg at hcon
            intro a ha
            intro hpa
            exact hcon a ha hpa
          obtain ⟨x, hx, hpx⟩ := hne
          have hlen' : (stepState nodes st).1.length < fuel := by
            have hq : (st.1.filter fun id =>
                !(st.2 id == 0 && (nodeMapGet nodes id).isSome)).length <
                st.1.length :=
              length_filter_not_lt st.1
                (fun id => st.2 id == 0 && (nodeMapGet nodes id).isSome) x hx hpx
            simp only [stepState]
            omega
          have hsub' : ∀ id ∈ (stepState nodes st).1, id ∈ nodes.map taskId := by
            intro id hid
            exact hsub id (List.mem_of_mem_filter hid)
          obtain ⟨rem, h1, h2, h3⟩ := ih (stepState nodes st) hlen' hsub' ⟨k, hk⟩
          refine ⟨rem, h1, h2, ?_⟩
          simp only [sortGo]
          rw [if_neg (by simp [hemp]), if_neg (by simp [hlay])]
          have hrw : sortGo nodes fuel
              (st.1.filter fun id => !(st.2 id == 0 && (nodeMapGet nodes id).isSome))
              ((collectLayerIds nodes st.1 st.2).foldl
                (fun d id => decDeg nodes id d) st.2) =
              Except.error (cycleMsg rem) := h3
          rw [hrw]

/-- C6: on every non-empty input on which some round of layering would emit
an empty layer while IDs remain (the stuck state reached by iterating the
loop's state transformation), `topologicalSort` returns the
`Circular dependency detected in tasks: ...` error enumerating the remaining
node IDs, instead of layers.  The concrete cycle `a#t → b#t → a#t` is such an
input (stuck already at round 0) and produces exactly that error. -/
theorem C6_topologicalSort_cycle_error :
    (∀ nodes : List TaskNode, nodes ≠ [] →
      (∃ k, Stuck nodes ((stepState nodes)^[k] (initState nodes))) →
      ∃ rem, rem ≠ [] ∧ (∀ id ∈ rem, id ∈ nodes.map taskId) ∧
        topologicalSort nodes = Except.error (cycleMsg rem)) ∧
    (∃ k, Stuck [cycleNodeA, cycleNodeB]
      ((stepState [cycleNodeA, cycleNodeB])^[k]
        (initState [cycleNodeA, cycleNodeB]))) ∧
    topologicalSort [cycleNodeA, cycleNodeB] =
      Except.error "Circular dependency detected in tasks: a#t, b#t" := by
  refine ⟨?_, ⟨0, by constructor <;> decide⟩, by rfl⟩
  intro nodes hne hstuck
  obtain ⟨rem, h1, h2, h3⟩ := sortGo_error_of_stuck nodes
    (dedupFirst (nodes.map taskId)).length.succ (initState nodes)
    (by simp [initState]) (fun id hid => dedupFirstAux_subset [] _ id hid) hstuck
  refine ⟨rem, h1, h2, ?_⟩
  unfold topologicalSort
  rw [if_neg (by simpa [List.isEmpty_iff] using hne)]
  exact h3

/-- C6 witness: the general statement applied to the concrete two-task
cycle, with both hypotheses discharged by evaluation. -/
theorem C6_topologicalSort_cycle_error_witness :
    ∃ rem, rem ≠ [] ∧
      (∀ id ∈ rem, id ∈ List.map taskId [cycleNodeA, cycleNodeB]) ∧
      topologicalSort [cycleNodeA, cycleNodeB] = Except.error (cycleMsg rem) :=
  C6_topologicalSort_cycle_error.1 [cycleNodeA, cycleNodeB]
    (by decide) ⟨0, by constructor <;> decide⟩

/-- Helper: additivity of filter lengths along a pointwise partition of the
predicate. -/
theorem length_filter_partition {α : Type} (L : List α) (p q r : α → Bool)
    (h : ∀ x ∈ L, p x = (q x || r x) ∧ ¬(q x = true ∧ r x = true)) :
    (L.filter p).length = (L.filter q).length + (L.filter r).length := by
  induction L with
  | nil => rfl
  | cons a t ih =>
    have ha := h a (List.mem_cons_self a t)
    have iht := ih fun x hx => h x (List.mem_cons_of_mem _ hx)
    cases hq : q a with
    | false =>
      cases hr : r a with
      | false =>
        have hp : p a = false := by rw [ha.1, hq, hr]; rfl
        simpa [List.filter_cons, hp, hq, hr] using iht
      | true =>
        have hp : p a = true := by rw [ha.1, hq, hr]; rfl
        simp [List.filter_cons, hp, hq, hr]
        omega
    | true =>
      cases hr : r a with
      | false =>
        have hp : p a = true := by rw [ha.1, hq, hr]; rfl
        simp [List.filter_cons, hp, hq, hr]
        omega
      | true => exact absurd ⟨hq, hr⟩ ha.2

/-- Helper: summing the indicator of membership counts the matching
entries. -/
theorem sum_map_ite_count (lids ds : List String) :
    ((lids.map fun id => if ds.contains id then (1 : Int) else 0).sum =
      ((lids.filter fun id => ds.contains id).length : Int)) := by
  induction lids with
  | nil => rfl
  | cons a t ih =>
    by_cases h : ds.contains a = true <;>
      simp only [List.map_cons, List.sum_cons, List.filter_cons, h, if_true,
        if_false, List.length_cons] <;>
      rw [ih] <;> push_cast <;> ring

/-- Helper: for duplicate-free lists, counting the members of one inside the
other is symmetric. -/
theorem length_filter_mem_comm {α : Type} [DecidableEq α] (l₁ l₂ : List α)
    (h₁ : l₁.Nodup) (h₂ : l₂.Nodup) :
    (l₁.filter fun x => l₂.contains x).length =
      (l₂.filter fun x => l₁.contains x).length := by
  have e₁ : (l₁.filter fun x => l₂.contains x).toFinset =
      l₁.toFinset ∩ l₂.toFinset := by
    ext x
    simp [List.mem_filter, List.elem_iff]
  have e₂ : (l₂.filter fun x => l₁.contains x).toFinset =
      l₂.toFinset ∩ l₁.toFinset := by
    ext x
    simp [List.mem_filter, List.elem_iff]
  rw [← List.toFinset_card_of_nodup (h₁.filter _),
    ← List.toFinset_card_of_nodup (h₂.filter _), e₁, e₂, Finset.inter_comm]

/-- Helper: what a successful node-map lookup returns. -/
theorem nodeMapGet_eq_some {nodes : List TaskNode} {id : String} {n : TaskNode}
    (h : nodeMapGet nodes id = some n) : n ∈ nodes ∧ taskId n = id := by
  unfold nodeMapGet at h
  refine ⟨List.mem_reverse.1 (List.mem_of_find?_eq_some h), ?_⟩
  simpa using List.find?_some h

/-- Helper: a node-map lookup succeeds exactly on the IDs of input nodes. -/
theorem nodeMapGet_isSome_iff {nodes : List TaskNode} {id : String} :
    (nodeMapGet nodes id).isSome = true ↔ id ∈ nodes.map taskId := by
  unfold nodeMapGet
  rw [List.find?_isSome]
  constructor
  · rintro ⟨n, hn, hp⟩
    exact List.mem_map.2 ⟨n, List.mem_reverse.1 hn, by simpa using hp⟩
  · intro hmem
    obtain ⟨n, hn, rfl⟩ := List.mem_map.1 hmem
    exact ⟨n, List.mem_reverse.2 hn, by simp⟩

/-- Helper: with duplicate-free IDs, looking up a node's own ID returns the
node. -/
theorem nodeMapGet_taskId {nodes : List TaskNode}
    (hND : (nodes.map taskId).Nodup) {n : TaskNode} (hn : n ∈ nodes) :
    nodeMapGet nodes (taskId n) = some n := by
  have hs : (nodeMapGet nodes (taskId n)).isSome = true :=
    nodeMapGet_isSome_iff.2 (List.mem_map_of_mem _ hn)
  obtain ⟨m, hm⟩ := Option.isSome_iff_exists.1 hs
  obtain ⟨hmem, hid⟩ := nodeMapGet_eq_some hm
  rw [hm, List.inj_on_of_nodup_map hND hmem hn hid]

/-- Helper: with duplicate-free IDs, filtering the nodes by one node's ID
yields that node alone. -/
theorem filter_taskId_eq {n : TaskNode} :
    ∀ (nodes : List TaskNode), (nodes.map taskId).Nodup → n ∈ nodes →
      (nodes.filter fun m => taskId m == taskId n) = [n] := by
  intro nodes
  induction nodes with
  | nil => intro _ hn; cases hn
  | cons a t ih =>
    intro hND hn
    have hND' : (t.map taskId).Nodup := by
      rw [List.map_cons, List.nodup_cons] at hND
      exact hND.2
    have hha : taskId a ∉ t.map taskId := by
      rw [List.map_cons, List.nodup_cons] at hND
      exact hND.1
    rcases List.mem_cons.1 hn with heq | hnt
    · subst heq
      rw [List.filter_cons, if_pos (by simp)]
      have ht : (t.filter fun m => taskId m == taskId n) = [] := by
        rw [List.filter_eq_nil_iff]
        intro m hm hbeq
        exact hha (by
          rw [← show taskId m = taskId n from by simpa using hbeq]
          exact List.mem_map_of_mem _ hm)
      rw [ht]
    · have hcond : ¬((taskId a == taskId n) = true) := by
        intro hbeq
        exact hha (by
          rw [show taskId a = taskId n from by simpa using hbeq]
          exact List.mem_map_of_mem _ hnt)
      rw [List.filter_cons, if_neg hcond]
      exact ih hND' hnt

/-- Helper: the Set model leaves a list unchanged when it is duplicate-free
and disjoint from the already-seen elements. -/
theorem dedupFirstAux_eq_self :
    ∀ (l seen : List String), l.Nodup → (∀ x ∈ l, ¬seen.contains x = true) →
      dedupFirstAux seen l = l := by
  intro l
  induction l with
  | nil => intro seen _ _; rfl
  | cons a t ih =>
    intro seen hnd hno
    rw [dedupFirstAux, if_neg (hno a (List.mem_cons_self a t))]
    congr 1
    apply ih (a :: seen) (List.nodup_cons.1 hnd).2
    intro x hx hc
    rw [List.contains_cons] at hc
    cases hxa : (x == a) with
    | true =>
      have hxa' : x = a := by simpa using hxa
      exact (List.nodup_cons.1 hnd).1 (hxa' ▸ hx)
    | false =>
      rw [hxa] at hc
      simp only [Bool.false_or] at hc
      exact hno x (List.mem_cons_of_mem a hx) hc

/-- Helper: the Set built from a duplicate-free list is that list. -/
theorem dedupFirst_eq_self (l : List String) (h : l.Nodup) :
    dedupFirst l = l :=
  dedupFirstAux_eq_self l [] h (by simp)

/-- Helper: membership written through the Bool `contains` of the model. -/
theorem contains_true_of_mem (l : List String) (a : String) (h : a ∈ l) :
    l.contains a = true :=
  List.elem_iff.2 h

/-- Helper: converse of `contains_true_of_mem`. -/
theorem mem_of_contains_true (l : List String) (a : String)
    (h : l.contains a = true) : a ∈ l :=
  List.elem_iff.1 h

/-- Helper: a `contains` test that fails, as a Bool equation. -/
theorem contains_false_of_not_mem (l : List String) (a : String) (h : a ∉ l) :
    l.contains a = false := by
  cases hc : l.contains a with
  | false => rfl
  | true => exact absurd (mem_of_contains_true l a hc) h

/-- Helper: the initial in-degree map satisfies the in-degree invariant. -/
theorem degInv_init (nodes : List TaskNode) (hND : (nodes.map taskId).Nodup) :
    DegInv nodes (initState nodes) := by
  intro n hn
  show inDeg0 nodes (taskId n) = _
  unfold inDeg0
  rw [filter_taskId_eq nodes hND hn]
  simp only [List.map_cons, List.map_nil, List.sum_cons, List.sum_nil, add_zero]
  congr 2
  apply List.filter_congr
  intro d _
  cases hP : (nodeMapGet nodes d).isSome with
  | false => rfl
  | true =>
    have hd : d ∈ nodes.map taskId := nodeMapGet_isSome_iff.1 hP
    have hcont : (initState nodes).1.contains d = true := by
      show (dedupFirst (nodes.map taskId)).contains d = true
      rw [dedupFirst_eq_self _ hND]
      exact contains_true_of_mem _ _ hd
    rw [hcont]
    rfl

/-- Helper: pointwise effect of folding the per-ID in-degree decrements. -/
theorem foldl_decDeg_apply (nodes : List TaskNode) :
    ∀ (lids : List String) (deg : String → Int) (x : String),
      (lids.foldl (fun d id => decDeg nodes id d) deg) x =
        deg x - (lids.map fun id =>
          ((nodes.filter fun m =>
            taskId m == x && m.dependencies.contains id).length : Int)).sum := by
  intro lids
  induction lids with
  | nil => intro deg x; simp
  | cons a t ih =>
    intro deg x
    rw [List.foldl_cons, ih]
    unfold decDeg
    simp only [List.map_cons, List.sum_cons]
    ring

/-- Helper: with duplicate-free IDs, the decrement count for node `n` and a
removed ID is the indicator of `id` among `n`'s dependency entries. -/
theorem cnt_eval {nodes : List TaskNode} (hND : (nodes.map taskId).Nodup)
    {n : TaskNode} (hn : n ∈ nodes) (id : String) :
    (nodes.filter fun m => taskId m == taskId n && m.dependencies.contains id) =
      if n.dependencies.contains id then [n] else [] := by
  have h1 : (nodes.filter fun m =>
      taskId m == taskId n && m.dependencies.contains id) =
      (nodes.filter fun m => taskId m == taskId n).filter
        (fun m => m.dependencies.contains id) := by
    rw [List.filter_filter]
    apply List.filter_congr
    intro m _
    rw [Bool.and_comm]
  rw [h1, filter_taskId_eq nodes hND hn, List.filter_singleton]
  cases n.dependencies.contains id <;> rfl

/-- Helper: the in-degree of node `n` after one round drops by the number of
this round's layer IDs that occur among `n`'s dependencies. -/
theorem stepState_deg {nodes : List TaskNode} (hND : (nodes.map taskId).Nodup)
    (st : List String × (String → Int)) {n : TaskNode} (hn : n ∈ nodes) :
    (stepState nodes st).2 (taskId n) = st.2 (taskId n) -
      (((collectLayerIds nodes st.1 st.2).filter fun id =>
        n.dependencies.contains id).length : Int) := by
  show ((collectLayerIds nodes st.1 st.2).foldl
    (fun d id => decDeg nodes id d) st.2) (taskId n) = _
  rw [foldl_decDeg_apply]
  congr 1
  have hcongr : ((collectLayerIds nodes st.1 st.2).map fun id =>
      ((nodes.filter fun m =>
        taskId m == taskId n && m.dependencies.contains id).length : Int)) =
      ((collectLayerIds nodes st.1 st.2).map fun id =>
        if n.dependencies.contains id then (1 : Int) else 0) := by
    apply List.map_congr_left
    intro id _
    rw [cnt_eval hND hn id]
    cases h : n.dependencies.contains id with
    | true => rw [if_pos rfl]; rfl
    | false => rw [if_neg (by simp)]; rfl
  rw [hcongr, sum_map_ite_count]

/-- Helper: one loop round preserves the in-degree invariant (this is where
duplicate-free present-dependency lists are needed: the source decrements
once per dependent by a membership test, while the initial count is per
entry). -/
theorem degInv_step {nodes : List TaskNode} (hND : (nodes.map taskId).Nodup)
    (hDD : ∀ n ∈ nodes,
      (n.dependencies.filter fun d => (nodeMapGet nodes d).isSome).Nodup)
    (st : List String × (String → Int)) (hinv : DegInv nodes st)
    (hnd : st.1.Nodup) : DegInv nodes (stepState nodes st) := by
  intro n hn
  rw [stepState_deg hND st hn, hinv n hn]
  have hlidsnd : (collectLayerIds nodes st.1 st.2).Nodup := hnd.filter _
  have hpartition :
      (n.dependencies.filter fun d =>
        (nodeMapGet nodes d).isSome && st.1.contains d).length =
      (n.dependencies.filter fun d =>
        (nodeMapGet nodes d).isSome && (stepState nodes st).1.contains d).length +
      (n.dependencies.filter fun d =>
        (collectLayerIds nodes st.1 st.2).contains d).length := by
    apply length_filter_partition
    intro d _
    by_cases hP : (nodeMapGet nodes d).isSome = true
    · by_cases hR : d ∈ st.1
      · by_cases hZ : (st.2 d == 0) = true
        · have hlid : d ∈ collectLayerIds nodes st.1 st.2 :=
            List.mem_filter.2 ⟨hR, by rw [hZ, hP]; rfl⟩
          have hR' : (stepState nodes st).1.contains d = false := by
            apply contains_false_of_not_mem
            intro hc
            have hq := (List.mem_filter.1 hc).2
            rw [hZ, hP] at hq
            simpa using hq
          constructor
          · rw [hP, hR', contains_true_of_mem _ _ hR,
              contains_true_of_mem _ _ hlid]
            rfl
          · rintro ⟨hq, -⟩
            rw [hP, hR'] at hq
            simpa using hq
        · have hZ' : (st.2 d == 0) = false := by
            cases h : (st.2 d == 0)
            · rfl
            · exact absurd h hZ
          have hlid : (collectLayerIds nodes st.1 st.2).contains d = false := by
            apply contains_false_of_not_mem
            intro hc
            have hq := (List.mem_filter.1 hc).2
            rw [hZ'] at hq
            simpa using hq
          have hR' : d ∈ (stepState nodes st).1 :=
            List.mem_filter.2 ⟨hR, by rw [hZ', hP]; rfl⟩
          constructor
          · rw [hP, contains_true_of_mem _ _ hR,
              contains_true_of_mem _ _ hR', hlid]
            rfl
          · rintro ⟨-, hr⟩
            rw [hlid] at hr
            cases hr
      · have hRc : st.1.contains d = false := contains_false_of_not_mem _ _ hR
        have hR' : (stepState nodes st).1.contains d = false := by
          apply contains_false_of_not_mem
          intro hc
          exact hR (List.mem_of_mem_filter hc)
        have hlid : (collectLayerIds nodes st.1 st.2).contains d = false := by
          apply contains_false_of_not_mem
          intro hc
          exact hR (List.mem_of_mem_filter hc)
        constructor
        · rw [hRc, hR', hlid]
          simp
        · rintro ⟨-, hr⟩
          rw [hlid] at hr
          cases hr
    · have hPf : (nodeMapGet nodes d).isSome = false := by
        cases h : (nodeMapGet nodes d).isSome
        · rfl
        · exact absurd h hP
      have hlid : (collectLayerIds nodes st.1 st.2).contains d = false := by
        apply contains_false_of_not_mem
        intro hc
        have hq := (List.mem_filter.1 hc).2
        rw [hPf] at hq
        simpa using hq
      constructor
      · rw [hPf, hlid]
        simp
      · rintro ⟨-, hr⟩
        rw [hlid] at hr
        cases hr
  have hcomm :
      ((collectLayerIds nodes st.1 st.2).filter fun id =>
        n.dependencies.contains id).length =
      (n.dependencies.filter fun d =>
        (collectLayerIds nodes st.1 st.2).contains d).length := by
    have hl1 : ((collectLayerIds nodes st.1 st.2).filter fun id =>
        n.dependencies.contains id) =
        ((collectLayerIds nodes st.1 st.2).filter fun id =>
          (n.dependencies.filter fun d =>
            (nodeMapGet nodes d).isSome).contains id) := by
      apply List.filter_congr
      intro id hid
      have hq := (List.mem_filter.1 hid).2
      rw [Bool.and_eq_true] at hq
      have hP : (nodeMapGet nodes id).isSome = true := hq.2
      cases hc : n.dependencies.contains id with
      | false =>
        apply (contains_false_of_not_mem _ _ ?_).symm
        intro hc'
        exact absurd (contains_true_of_mem _ _ (List.mem_of_mem_filter hc'))
          (by rw [hc]; simp)
      | true =>
        apply (contains_true_of_mem _ _ ?_).symm
        exact List.mem_filter.2 ⟨mem_of_contains_true _ _ hc, hP⟩
    have hl2 : (n.dependencies.filter fun d =>
        (collectLayerIds nodes st.1 st.2).contains d) =
        ((n.dependencies.filter fun d => (nodeMapGet nodes d).isSome).filter
          fun d => (collectLayerIds nodes st.1 st.2).contains d) := by
      rw [List.filter_filter]
      apply List.filter_congr
      intro d _
      cases hc : (collectLayerIds nodes st.1 st.2).contains d with
      | false => simp
      | true =>
        have hq := (List.mem_filter.1 (mem_of_contains_true _ _ hc)).2
        rw [Bool.and_eq_true] at hq
        simp [hq.2]
    rw [hl1, hl2]
    exact length_filter_mem_comm _ _ hlidsnd (hDD n hn)
  rw [hcomm, hpartition]
  push_cast
  ring

/-- Helper: when the remaining IDs are non-empty and the present edges admit
a topological height, the round's layer is non-empty — a remaining ID of
minimal height has no present dependency left and has in-degree `0`. -/
theorem collect_ne_of_rank {nodes : List TaskNode}
    (hND : (nodes.map taskId).Nodup) (st : List String × (String → Int))
    (hinv : DegInv nodes st) (hsub : ∀ id ∈ st.1, id ∈ nodes.map taskId)
    (hne : st.1 ≠ []) (rank : String → Nat)
    (hrank : ∀ n ∈ nodes, ∀ d ∈ n.dependencies,
      (nodeMapGet nodes d).isSome = true → rank d < rank (taskId n)) :
    collectLayerIds nodes st.1 st.2 ≠ [] := by
  have hm' : ∃ m, m ∈ st.1.argmin rank := by
    cases h : st.1.argmin rank with
    | none => exact absurd (List.argmin_eq_none.1 h) hne
    | some m => exact ⟨m, Option.mem_def.2 rfl⟩
  obtain ⟨m, hm⟩ := hm'
  have hmem : m ∈ st.1 := List.argmin_mem hm
  have hid : m ∈ nodes.map taskId := hsub m hmem
  have hsome : (nodeMapGet nodes m).isSome = true := nodeMapGet_isSome_iff.2 hid
  obtain ⟨n, hn⟩ := Option.isSome_iff_exists.1 hsome
  obtain ⟨hnn, hidn⟩ := nodeMapGet_eq_some hn
  have hdeg : st.2 m = 0 := by
    rw [← hidn, hinv n hnn]
    suffices h : (n.dependencies.filter fun d =>
        (nodeMapGet nodes d).isSome && st.1.contains d) = [] by
      rw [h]
      rfl
    rw [List.filter_eq_nil_iff]
    intro d hd hcond
    rw [Bool.and_eq_true] at hcond
    have h1 : rank d < rank (taskId n) := hrank n hnn d hd hcond.1
    have h2 : rank m ≤ rank d :=
      List.le_of_mem_argmin (mem_of_contains_true _ _ hcond.2) hm
    rw [hidn] at h1
    omega
  intro hcol
  have hmc : m ∈ collectLayerIds nodes st.1 st.2 :=
    List.mem_filter.2 ⟨hmem, by rw [hdeg, hsome]; rfl⟩
  rw [hcol] at hmc
  cases hmc

/-- Helper: mapping `taskId` over the looked-up layer nodes recovers the
layer IDs. -/
theorem filterMap_nodeMapGet_map (nodes : List TaskNode) :
    ∀ l : List String, (∀ id ∈ l, (nodeMapGet nodes id).isSome = true) →
      (l.filterMap (nodeMapGet nodes)).map taskId = l := by
  intro l
  induction l with
  | nil => intro _; rfl
  | cons a t ih =>
    intro h
    obtain ⟨n, hn⟩ := Option.isSome_iff_exists.1 (h a (List.mem_cons_self a t))
    rw [List.filterMap_cons, hn, List.map_cons,
      ih fun id hid => h id (List.mem_cons_of_mem _ hid), (nodeMapGet_eq_some hn).2]

/-- Helper: layer nodes are input nodes. -/
theorem mem_of_mem_filterMap_nodeMapGet {nodes : List TaskNode}
    {l : List String} {n : TaskNode}
    (h : n ∈ l.filterMap (nodeMapGet nodes)) : n ∈ nodes := by
  obtain ⟨id, -, hid⟩ := List.mem_filterMap.1 h
  exact (nodeMapGet_eq_some hid).1

/-- Helper: the main induction for the amended C2.  Under the loop
invariants (duplicate-free remaining IDs drawn from the input, correct
in-degrees) and a topological height for the present edges, `sortGo`
succeeds; its layers concatenate to exactly the remaining IDs, contain only
input nodes, and place every present dependency of a node either outside the
remaining set or in a strictly earlier layer. -/
theorem sortGo_ok (nodes : List TaskNode) (hND : (nodes.map taskId).Nodup)
    (hDD : ∀ n ∈ nodes,
      (n.dependencies.filter fun d => (nodeMapGet nodes d).isSome).Nodup)
    (rank : String → Nat)
    (hrank : ∀ n ∈ nodes, ∀ d ∈ n.dependencies,
      (nodeMapGet nodes d).isSome = true → rank d < rank (taskId n)) :
    ∀ (fuel : Nat) (st : List String × (String → Int)),
      st.1.length < fuel → st.1.Nodup →
      (∀ id ∈ st.1, id ∈ nodes.map taskId) → DegInv nodes st →
      ∃ ls, sortGo nodes fuel st.1 st.2 = Except.ok ls ∧
        List.Perm (ls.flatten.map taskId) st.1 ∧
        (∀ l ∈ ls, ∀ n ∈ l, n ∈ nodes) ∧
        (∀ (i : Nat) (n : TaskNode), n ∈ ls.getD i [] →
          ∀ d ∈ n.dependencies, (nodeMapGet nodes d).isSome = true →
          d ∉ st.1 ∨ ∃ j, j < i ∧ d ∈ (ls.getD j []).map taskId) := by
  intro fuel
  induction fuel with
  | zero =>
    intro st hlen
    omega
  | succ fuel ih =>
    intro st hlen hnd hsub hinv
    by_cases hemp : st.1.isEmpty = true
    · have h1 : st.1 = [] := List.isEmpty_iff.1 hemp
      refine ⟨[], ?_, by simp [h1], by simp, ?_⟩
      · simp only [sortGo]
        rw [if_pos hemp]
      · intro i n hni
        simp at hni
    · have hne : st.1 ≠ [] := fun h => hemp (by simp [h])
      have hcoll : collectLayerIds nodes st.1 st.2 ≠ [] :=
        collect_ne_of_rank hND st hinv hsub hne rank hrank
      have hlP : ∀ id ∈ collectLayerIds nodes st.1 st.2,
          (nodeMapGet nodes id).isSome = true := by
        intro id h
        have hq := (List.mem_filter.1 h).2
        rw [Bool.and_eq_true] at hq
        exact hq.2
      obtain ⟨x, hx⟩ := List.exists_mem_of_ne_nil _ hcoll
      have hxmem : x ∈ st.1 := (List.mem_filter.1 hx).1
      have hxp := (List.mem_filter.1 hx).2
      have hlen' : (stepState nodes st).1.length < fuel := by
        have hq : (st.1.filter fun id =>
            !(st.2 id == 0 && (nodeMapGet nodes id).isSome)).length <
            st.1.length :=
          length_filter_not_lt st.1
            (fun id => st.2 id == 0 && (nodeMapGet nodes id).isSome) x hxmem hxp
        simp only [stepState]
        omega
      have hnd' : (stepState nodes st).1.Nodup := hnd.filter _
      have hsub' : ∀ id ∈ (stepState nodes st).1, id ∈ nodes.map taskId :=
        fun id hid => hsub id (List.mem_of_mem_filter hid)
      have hinv' : DegInv nodes (stepState nodes st) :=
        degInv_step hND hDD st hinv hnd
      obtain ⟨ls', hok', hperm', hmem', hlay'⟩ :=
        ih (stepState nodes st) hlen' hnd' hsub' hinv'
      have hok2 : sortGo nodes fuel
          (st.1.filter fun id => !(st.2 id == 0 && (nodeMapGet nodes id).isSome))
          ((collectLayerIds nodes st.1 st.2).foldl
            (fun d id => decDeg nodes id d) st.2) = Except.ok ls' := hok'
      refine ⟨((collectLayerIds nodes st.1 st.2).filterMap (nodeMapGet nodes))
        :: ls', ?_, ?_, ?_, ?_⟩
      · simp only [sortGo]
        rw [if_neg (by simp [hemp]),
          if_neg (by simp [List.isEmpty_iff, hcoll]), hok2]
      · rw [List.flatten_cons, List.map_append,
          filterMap_nodeMapGet_map nodes _ hlP]
        have hstep : List.Perm
            (collectLayerIds nodes st.1 st.2 ++ (stepState nodes st).1) st.1 :=
          List.filter_append_perm
            (fun id => st.2 id == 0 && (nodeMapGet nodes id).isSome) st.1
        exact (hperm'.append_left (collectLayerIds nodes st.1 st.2)).trans hstep
      · intro l hl n hn
        rcases List.mem_cons.1 hl with rfl | hl'
        · exact mem_of_mem_filterMap_nodeMapGet hn
        · exact hmem' l hl' n hn
      · intro i n hni d hd hP
        cases i with
        | zero =>
          left
          simp only [List.getD_cons_zero] at hni
          obtain ⟨id, hidl, hidn⟩ := List.mem_filterMap.1 hni
          have hzero : st.2 id = 0 := by
            have hq := (List.mem_filter.1 hidl).2
            rw [Bool.and_eq_true] at hq
            exact beq_iff_eq.1 hq.1
          have hidtask : taskId n = id := (nodeMapGet_eq_some hidn).2
          have hcount := hinv n (nodeMapGet_eq_some hidn).1
          rw [hidtask, hzero] at hcount
          have hflt : (n.dependencies.filter fun d =>
              (nodeMapGet nodes d).isSome && st.1.contains d) = [] := by
            have : ((n.dependencies.filter fun d =>
                (nodeMapGet nodes d).isSome && st.1.contains d).length : Int)
                = 0 := hcount.symm
            rcases h : (n.dependencies.filter fun d =>
                (nodeMapGet nodes d).isSome && st.1.contains d) with _ | ⟨a, t⟩
            · rfl
            · exfalso
              rw [h] at this
              simp only [List.length_cons] at this
              omega
          intro hdst
          have : d ∈ (n.dependencies.filter fun d =>
              (nodeMapGet nodes d).isSome && st.1.contains d) :=
            List.mem_filter.2 ⟨hd, by
              rw [hP, contains_true_of_mem _ _ hdst]
              rfl⟩
          rw [hflt] at this
          cases this
        | succ i =>
          simp only [List.getD_cons_succ] at hni
          rcases hlay' i n hni d hd hP with hout | ⟨j, hj, hdj⟩
          · by_cases hdst : d ∈ st.1
            · right
              refine ⟨0, Nat.succ_pos i, ?_⟩
              simp only [List.getD_cons_zero]
              rw [filterMap_nodeMapGet_map nodes _ hlP]
              by_contra hdl
              apply hout
              refine List.mem_filter.2 ⟨hdst, ?_⟩
              have hzne : ¬(st.2 d == 0 && (nodeMapGet nodes d).isSome) = true := by
                intro hzz
                exact hdl (List.mem_filter.2 ⟨hdst, hzz⟩)
              cases hzz : (st.2 d == 0 && (nodeMapGet nodes d).isSome) with
              | true => exact absurd hzz hzne
              | false => rfl
            · exact Or.inl hdst
          · right
            refine ⟨j + 1, Nat.succ_lt_succ hj, ?_⟩
            simpa only [List.getD_cons_succ] using hdj

/-- C2 (counterexample): the claim promises layers for every input whose
dependency edges (restricted to present IDs) form an acyclic graph.  The two
tasks `a#t → b#t` (an acyclic edge set, witnessed by the topological height
`dupDepRank`, with duplicate-free node IDs) where `a#t` *lists the edge to
`b#t` twice* make `topologicalSort` throw `Circular dependency` instead:
the initial in-degree counts dependency entries with multiplicity, but
removal decrements dependents only once, by a membership test. -/
theorem C2_topologicalSort_counterexample :
    ([dupDepNodeA, dupDepNodeB].map taskId).Nodup ∧
    (∀ n ∈ [dupDepNodeA, dupDepNodeB], ∀ d ∈ n.dependencies,
      (nodeMapGet [dupDepNodeA, dupDepNodeB] d).isSome = true →
      dupDepRank d < dupDepRank (taskId n)) ∧
    topologicalSort [dupDepNodeA, dupDepNodeB] =
      Except.error "Circular dependency detected in tasks: a#t" :=
  ⟨by decide, by decide, by rfl⟩

/-- C2 (amended): for every input list of task nodes with duplicate-free IDs
whose *present* dependency entries are listed without duplicates per node,
and whose present dependency edges are acyclic (they admit a topological
height function), `topologicalSort` returns layers whose concatenation is
exactly the input nodes (each exactly once), and every dependency of a node
that names an ID present in the input lies in a strictly earlier layer;
dependency entries whose target ID is not present are ignored. -/
theorem C2_topologicalSort_amended (nodes : List TaskNode)
    (hND : (nodes.map taskId).Nodup)
    (hDD : ∀ n ∈ nodes,
      (n.dependencies.filter fun d => (nodeMapGet nodes d).isSome).Nodup)
    (hacyc : ∃ rank : String → Nat, ∀ n ∈ nodes, ∀ d ∈ n.dependencies,
      (nodeMapGet nodes d).isSome = true → rank d < rank (taskId n)) :
    ∃ ls, topologicalSort nodes = Except.ok ls ∧
      List.Perm ls.flatten nodes ∧
      (∀ (i : Nat) (n : TaskNode), n ∈ ls.getD i [] →
        ∀ d ∈ n.dependencies, (nodeMapGet nodes d).isSome = true →
        ∃ j, j < i ∧ d ∈ (ls.getD j []).map taskId) := by
  obtain ⟨rank, hrank⟩ := hacyc
  by_cases hnil : nodes = []
  · subst hnil
    refine ⟨[], rfl, List.Perm.refl [], ?_⟩
    intro i n h
    simp at h
  · have hinit1 : (initState nodes).1 = nodes.map taskId := by
      show dedupFirst _ = _
      exact dedupFirst_eq_self _ hND
    obtain ⟨ls, hok, hperm, hmems, hlay⟩ := sortGo_ok nodes hND hDD rank hrank
      (dedupFirst (nodes.map taskId)).length.succ (initState nodes)
      (by simp [initState]) (by rw [hinit1]; exact hND)
      (by rw [hinit1]; exact fun id h => h) (degInv_init nodes hND)
    rw [hinit1] at hperm
    refine ⟨ls, ?_, ?_, ?_⟩
    · unfold topologicalSort
      rw [if_neg (by simpa [List.isEmpty_iff] using hnil)]
      exact hok
    · have hfnd : (ls.flatten.map taskId).Nodup := hperm.nodup_iff.2 hND
      have hflnd : ls.flatten.Nodup := List.Nodup.of_map _ hfnd
      have hnnd : nodes.Nodup := List.Nodup.of_map _ hND
      apply (List.perm_ext_iff_of_nodup hflnd hnnd).2
      intro n
      constructor
      · intro hn
        obtain ⟨l, hl, hnl⟩ := List.mem_flatten.1 hn
        exact hmems l hl n hnl
      · intro hn
        have hmemmap : taskId n ∈ ls.flatten.map taskId :=
          hperm.mem_iff.2 (List.mem_map_of_mem _ hn)
        obtain ⟨m, hm, hmid⟩ := List.mem_map.1 hmemmap
        obtain ⟨l, hl, hml⟩ := List.mem_flatten.1 hm
        have hmn : m ∈ nodes := hmems l hl m hml
        rwa [List.inj_on_of_nodup_map hND hmn hn hmid] at hm
    · intro i n hni d hd hP
      rcases hlay i n hni d hd hP with hout | hj
      · exfalso
        apply hout
        rw [hinit1]
        exact nodeMapGet_isSome_iff.1 hP
      · exact hj

/-- C2 witness: the amended statement applied to the concrete three-task DAG
of the workspace scenario, its hypotheses discharged by evaluation (with the
explicit topological height `internals#test ↦ 0`, others `↦ 1`). -/
theorem C2_topologicalSort_amended_witness :
    ∃ ls, topologicalSort scenarioNodes = Except.ok ls ∧
      List.Perm ls.flatten scenarioNodes ∧
      (∀ (i : Nat) (n : TaskNode), n ∈ ls.getD i [] →
        ∀ d ∈ n.dependencies, (nodeMapGet scenarioNodes d).isSome = true →
        ∃ j, j < i ∧ d ∈ (ls.getD j []).map taskId) :=
  C2_topologicalSort_amended scenarioNodes (by decide) (by decide)
    ⟨fun s => if s = "internals#test" then 0 else 1, by decide⟩

/-- Helper: what a successful step-map lookup returns. -/
theorem stepMapGet_eq_some {steps : List Step} {name : String} {st : Step}
    (h : stepMapGet steps name = some st) : st ∈ steps ∧ st.name = name := by
  unfold stepMapGet at h
  refine ⟨List.mem_reverse.1 (List.mem_of_find?_eq_some h), ?_⟩
  simpa using List.find?_some h

/-- Helper: a step-map lookup succeeds exactly on declared step names. -/
theorem stepMapGet_isSome_iff {steps : List Step} {name : String} :
    (stepMapGet steps name).isSome = true ↔ name ∈ steps.map Step.name := by
  unfold stepMapGet
  rw [List.find?_isSome]
  constructor
  · rintro ⟨s, hs, hp⟩
    exact List.mem_map.2 ⟨s, List.mem_reverse.1 hs, by simpa using hp⟩
  · intro hmem
    obtain ⟨s, hs, rfl⟩ := List.mem_map.1 hmem
    exact ⟨s, List.mem_reverse.2 hs, by simp⟩

/-- Helper: filter length is monotone along a pointwise implication. -/
theorem length_filter_mono {α : Type} :
    ∀ (l : List α) (p q : α → Bool), (∀ x ∈ l, p x = true → q x = true) →
      (l.filter p).length ≤ (l.filter q).length := by
  intro l p q
  induction l with
  | nil => intro _; exact Nat.le_refl 0
  | cons a t ih =>
    intro h
    have iht := ih fun x hx => h x (List.mem_cons_of_mem _ hx)
    rw [List.filter_cons, List.filter_cons]
    cases hpa : p a with
    | true =>
      have hqa : q a = true := h a (List.mem_cons_self a t) hpa
      simp [hqa]
      omega
    | false =>
      cases hqa : q a with
      | true =>
        simp [hqa]
        omega
      | false =>
        simp [hqa]
        exact iht

/-- Helper: filter length grows strictly when some member moves from
rejected to accepted along the implication. -/
theorem length_filter_strict {α : Type} (x₀ : α) :
    ∀ (l : List α) (p q : α → Bool), (∀ x ∈ l, p x = true → q x = true) →
      x₀ ∈ l → q x₀ = true → p x₀ = false →
      (l.filter p).length < (l.filter q).length := by
  intro l
  induction l with
  | nil => intro p q _ hx; cases hx
  | cons a t ih =>
    intro p q h hx hq0 hp0
    rw [List.filter_cons, List.filter_cons]
    rcases List.mem_cons.1 hx with rfl | hxt
    · have hmono := length_filter_mono t p q
        fun y hy => h y (List.mem_cons_of_mem _ hy)
      simp [hp0, hq0]
      omega
    · have iht := ih p q (fun y hy => h y (List.mem_cons_of_mem _ hy)) hxt hq0 hp0
      cases hpa : p a with
      | true =>
        have hqa : q a = true := h a (List.mem_cons_self a t) hpa
        simp [hqa]
        omega
      | false =>
        cases hqa : q a with
        | true =>
          simp [hqa]
          omega
        | false =>
          simp [hqa]
          exact iht

/-- Helper: reachability is transitive. -/
theorem depReaches_trans {steps : List Step} {a b c : String}
    (h1 : DepReaches steps a b) (h2 : DepReaches steps b c) :
    DepReaches steps a c := by
  induction h2 with
  | refl => exact h1
  | tail hab st hst hc ih => exact DepReaches.tail ih st hst hc

/-- Helper: a dependency-closed set absorbs everything reachable from a
member. -/
theorem depClosed_reaches {steps : List Step} {needed : List String}
    (hcl : DepClosed steps needed) {a x : String} (ha : a ∈ needed)
    (hr : DepReaches steps a x) : x ∈ needed := by
  induction hr with
  | refl => exact ha
  | tail hab st hst hc ih => exact hcl _ ih st hst _ hc

/-- Helper: the joint specification of `addWithDeps` and `addEachDep` by
induction on the fuel, under the workflow invariants (unique names, closed
dependency references) and a topological height of the dependency edges.
`addWithDeps fuel name` succeeds when `fuel` exceeds the height of `name`
and every名 in `visiting` is higher than `name` (the DFS path property);
the result extends `needed` with exactly the names reachable from `name`,
remains closed, and stays inside the declared names. -/
theorem addWithDeps_spec (steps : List Step)
    (hND : (steps.map Step.name).Nodup)
    (hClosed : ∀ s ∈ steps, ∀ d ∈ stepDeps s, d ∈ steps.map Step.name)
    (rk : String → Nat)
    (hrk : ∀ s ∈ steps, ∀ d ∈ stepDeps s, rk d < rk s.name) :
    ∀ fuel : Nat,
      (∀ name, name ∈ steps.map Step.name → rk name < fuel →
        ∀ needed visiting,
          (∀ x ∈ needed, x ∈ steps.map Step.name) →
          DepClosed steps needed →
          (∀ v ∈ visiting, rk name < rk v) →
          ∃ needed',
            addWithDeps steps fuel name needed visiting = Except.ok needed' ∧
            (∀ x ∈ needed, x ∈ needed') ∧ name ∈ needed' ∧
            (∀ x ∈ needed', x ∈ steps.map Step.name) ∧
            DepClosed steps needed' ∧
            (∀ x ∈ needed', x ∈ needed ∨ DepReaches steps name x)) ∧
      (∀ ds : List String,
        (∀ d ∈ ds, d ∈ steps.map Step.name ∧ rk d < fuel) →
        ∀ needed visiting,
          (∀ x ∈ needed, x ∈ steps.map Step.name) →
          DepClosed steps needed →
          (∀ v ∈ visiting, ∀ d ∈ ds, rk d < rk v) →
          ∃ needed',
            addEachDep steps fuel ds needed visiting = Except.ok needed' ∧
            (∀ x ∈ needed, x ∈ needed') ∧ (∀ d ∈ ds, d ∈ needed') ∧
            (∀ x ∈ needed', x ∈ steps.map Step.name) ∧
            DepClosed steps needed' ∧
            (∀ x ∈ needed', x ∈ needed ∨ ∃ d ∈ ds, DepReaches steps d x)) := by
  intro fuel
  induction fuel with
  | zero =>
    constructor
    · intro name _ h0
      omega
    · intro ds hds needed visiting hsub hcl _
      cases ds with
      | nil =>
        refine ⟨needed, by simp [addEachDep], fun x hx => hx, ?_, hsub, hcl,
          fun x hx => Or.inl hx⟩
        intro d hd
        cases hd
      | cons d rest =>
        have := (hds d (List.mem_cons_self d rest)).2
        omega
  | succ fuel ih =>
    have hP : ∀ name, name ∈ steps.map Step.name → rk name < fuel + 1 →
        ∀ needed visiting,
          (∀ x ∈ needed, x ∈ steps.map Step.name) →
          DepClosed steps needed →
          (∀ v ∈ visiting, rk name < rk v) →
          ∃ needed',
            addWithDeps steps (fuel + 1) name needed visiting = Except.ok needed' ∧
            (∀ x ∈ needed, x ∈ needed') ∧ name ∈ needed' ∧
            (∀ x ∈ needed', x ∈ steps.map Step.name) ∧
            DepClosed steps needed' ∧
            (∀ x ∈ needed', x ∈ needed ∨ DepReaches steps name x) := by
      intro name hname hrank needed visiting hsub hcl hvis
      by_cases hin : needed.contains name = true
      · refine ⟨needed, ?_, fun x hx => hx, mem_of_contains_true _ _ hin,
          hsub, hcl, fun x hx => Or.inl hx⟩
        simp only [addWithDeps]
        rw [if_pos hin]
      · have hnvis : visiting.contains name = false :=
          contains_false_of_not_mem _ _ fun hmem =>
            lt_irrefl _ (hvis name hmem)
        have hsome : (stepMapGet steps name).isSome = true :=
          stepMapGet_isSome_iff.2 hname
        obtain ⟨st, hst⟩ := Option.isSome_iff_exists.1 hsome
        obtain ⟨hstmem, hstname⟩ := stepMapGet_eq_some hst
        have ihQ := ih.2
        obtain ⟨needed', heq, hgrow, halld, hsub', hcl', hreach⟩ :=
          ihQ (stepDeps st)
            (by
              intro d hd
              have h1 : rk d < rk name := by
                rw [← hstname]
                exact hrk st hstmem d hd
              exact ⟨hClosed st hstmem d hd, by omega⟩)
            needed (visiting ++ [name]) hsub hcl
            (by
              intro v hv d hd
              have h1 : rk d < rk name := by
                rw [← hstname]
                exact hrk st hstmem d hd
              rcases List.mem_append.1 hv with hv1 | hv2
              · exact lt_trans h1 (hvis v hv1)
              · have : v = name := by simpa using hv2
                rw [this]
                exact h1)
        refine ⟨needed' ++ [name], ?_, ?_, ?_, ?_, ?_, ?_⟩
        · simp only [addWithDeps]
          rw [if_neg hin, if_neg (by rw [hnvis]; exact Bool.false_ne_true)]
          simp only [hst, heq]
        · intro x hx
          exact List.mem_append_left _ (hgrow x hx)
        · exact List.mem_append_right _ (List.mem_cons_self name [])
        · intro x hx
          rcases List.mem_append.1 hx with hx1 | hx2
          · exact hsub' x hx1
          · have : x = name := by simpa using hx2
            rw [this]
            exact hname
        · intro x hx st' hst' d hd
          rcases List.mem_append.1 hx with hx1 | hx2
          · exact List.mem_append_left _ (hcl' x hx1 st' hst' d hd)
          · have hxn : x = name := by simpa using hx2
            rw [hxn] at hst'
            rw [hst] at hst'
            cases hst'
            exact List.mem_append_left _ (halld d hd)
        · intro x hx
          rcases List.mem_append.1 hx with hx1 | hx2
          · rcases hreach x hx1 with hold | ⟨d, hd, hr⟩
            · exact Or.inl hold
            · exact Or.inr (depReaches_trans
                (DepReaches.tail DepReaches.refl st hst hd) hr)
          · have : x = name := by simpa using hx2
            rw [this]
            exact Or.inr DepReaches.refl
    refine ⟨hP, ?_⟩
    intro ds
    induction ds with
    | nil =>
      intro _ needed visiting hsub hcl _
      refine ⟨needed, by simp [addEachDep], fun x hx => hx, ?_, hsub, hcl,
        fun x hx => Or.inl hx⟩
      intro d hd
      cases hd
    | cons d rest ihrest =>
      intro hds needed visiting hsub hcl hvis
      obtain ⟨needed₁, heq₁, hgrow₁, hd₁, hsub₁, hcl₁, hreach₁⟩ :=
        hP d (hds d (List.mem_cons_self d rest)).1
          (hds d (List.mem_cons_self d rest)).2 needed visiting hsub hcl
          (fun v hv => hvis v hv d (List.mem_cons_self d rest))
      obtain ⟨needed₂, heq₂, hgrow₂, hall₂, hsub₂, hcl₂, hreach₂⟩ :=
        ihrest (fun d' hd' => hds d' (List.mem_cons_of_mem _ hd'))
          needed₁ visiting hsub₁ hcl₁
          (fun v hv d' hd' => hvis v hv d' (List.mem_cons_of_mem _ hd'))
      refine ⟨needed₂, ?_, ?_, ?_, hsub₂, hcl₂, ?_⟩
      · simp only [addEachDep, heq₁]
        exact heq₂
      · exact fun x hx => hgrow₂ x (hgrow₁ x hx)
      · intro d' hd'
        rcases List.mem_cons.1 hd' with rfl | hd''
        · exact hgrow₂ d' hd₁
        · exact hall₂ d' hd''
      · intro x hx
        rcases hreach₂ x hx with hx1 | ⟨d', hd', hr⟩
        · rcases hreach₁ x hx1 with hx0 | hr
          · exact Or.inl hx0
          · exact Or.inr ⟨d, List.mem_cons_self d rest, hr⟩
        · exact Or.inr ⟨d', List.mem_cons_of_mem _ hd', hr⟩

/-- Helper: any topological height of the dependency edges can be replaced
by one bounded by the number of steps (its value at `x` is the number of
declared names of strictly smaller original height). -/
theorem rank_normalize (steps : List Step)
    (hClosed : ∀ s ∈ steps, ∀ d ∈ stepDeps s, d ∈ steps.map Step.name)
    (rank : String → Nat)
    (hrank : ∀ s ∈ steps, ∀ d ∈ stepDeps s, rank d < rank s.name) :
    ∃ rk : String → Nat,
      (∀ s ∈ steps, ∀ d ∈ stepDeps s, rk d < rk s.name) ∧
      (∀ x, rk x ≤ steps.length) := by
  refine ⟨fun x => ((steps.map Step.name).filter fun y =>
    decide (rank y < rank x)).length, ?_, ?_⟩
  · intro s hs d hd
    apply length_filter_strict d
    · intro y _ hpy
      exact decide_eq_true (lt_trans (of_decide_eq_true hpy) (hrank s hs d hd))
    · exact hClosed s hs d hd
    · exact decide_eq_true (hrank s hs d hd)
    · exact decide_eq_false (lt_irrefl (rank d))
  · intro x
    calc ((steps.map Step.name).filter fun y =>
        decide (rank y < rank x)).length
        ≤ (steps.map Step.name).length := List.length_filter_le _ _
      _ = steps.length := List.length_map _ _

/-- Helper: the requested-names loop of `resolveStepsWithDeps` succeeds
under the workflow invariants and accumulates exactly the names reachable
from the requested ones. -/
theorem addRequested_spec (steps : List Step)
    (hND : (steps.map Step.name).Nodup)
    (hClosed : ∀ s ∈ steps, ∀ d ∈ stepDeps s, d ∈ steps.map Step.name)
    (rk : String → Nat)
    (hrk : ∀ s ∈ steps, ∀ d ∈ stepDeps s, rk d < rk s.name)
    (hbound : ∀ x, rk x ≤ steps.length) :
    ∀ rs : List String, (∀ r ∈ rs, r ∈ steps.map Step.name) →
      ∀ needed, (∀ x ∈ needed, x ∈ steps.map Step.name) →
      DepClosed steps needed →
      ∃ needed', addRequested steps rs needed = Except.ok needed' ∧
        (∀ x ∈ needed, x ∈ needed') ∧ (∀ r ∈ rs, r ∈ needed') ∧
        (∀ x ∈ needed', x ∈ steps.map Step.name) ∧ DepClosed steps needed' ∧
        (∀ x ∈ needed', x ∈ needed ∨ ∃ r ∈ rs, DepReaches steps r x) := by
  have hP := (addWithDeps_spec steps hND hClosed rk hrk (steps.length + 1)).1
  intro rs
  induction rs with
  | nil =>
    intro _ needed hsub hcl
    exact ⟨needed, rfl, fun x hx => hx,
      fun r hr => absurd hr (List.not_mem_nil r), hsub, hcl,
      fun x hx => Or.inl hx⟩
  | cons r rest ih =>
    intro hrs needed hsub hcl
    obtain ⟨needed₁, heq₁, hgrow₁, hr₁, hsub₁, hcl₁, hreach₁⟩ :=
      hP r (hrs r (List.mem_cons_self r rest))
        (Nat.lt_succ_of_le (hbound r)) needed [] hsub hcl
        (by intro v hv; cases hv)
    obtain ⟨needed₂, heq₂, hgrow₂, hall₂, hsub₂, hcl₂, hreach₂⟩ :=
      ih (fun r' hr' => hrs r' (List.mem_cons_of_mem _ hr')) needed₁ hsub₁ hcl₁
    refine ⟨needed₂, ?_, fun x hx => hgrow₂ x (hgrow₁ x hx), ?_, hsub₂, hcl₂, ?_⟩
    · simp only [addRequested, heq₁]
      exact heq₂
    · intro r' hr'
      rcases List.mem_cons.1 hr' with rfl | h
      · exact hgrow₂ _ hr₁
      · exact hall₂ _ h
    · intro x hx
      rcases hreach₂ x hx with h1 | ⟨r', hr', hrch⟩
      · rcases hreach₁ x h1 with h0 | hrch
        · exact Or.inl h0
        · exact Or.inr ⟨r, List.mem_cons_self r rest, hrch⟩
      · exact Or.inr ⟨r', List.mem_cons_of_mem _ hr', hrch⟩

/-- C3: for every step list satisfying the workflow invariants (unique
names, dependency names declared, acyclic `dependsOn` edges — expressed by a
topological height) and every requested-name list whose members exist,
`resolveStepsWithDeps` succeeds and returns exactly the requested steps and
their transitive dependencies, each exactly once, in the declaration order
of the full step list (a sublist of `steps`); and the output is unchanged
under any permutation or duplication of the requested names collecting the
same set. -/
theorem C3_resolveStepsWithDeps (steps : List Step) (req : List String)
    (hND : (steps.map Step.name).Nodup)
    (hClosed : ∀ s ∈ steps, ∀ d ∈ stepDeps s, d ∈ steps.map Step.name)
    (hacyc : ∃ rank : String → Nat, ∀ s ∈ steps, ∀ d ∈ stepDeps s,
      rank d < rank s.name)
    (hreq : ∀ r ∈ req, r ∈ steps.map Step.name) :
    ∃ out, resolveStepsWithDeps steps req = Except.ok out ∧
      out.Sublist steps ∧
      (∀ s : Step, s ∈ out ↔ s ∈ steps ∧ ∃ r ∈ req, DepReaches steps r s.name) ∧
      (∀ req' : List String, (∀ x, x ∈ req' ↔ x ∈ req) →
        resolveStepsWithDeps steps req' = resolveStepsWithDeps steps req) := by
  obtain ⟨rank, hrank⟩ := hacyc
  obtain ⟨rk, hrk, hbound⟩ := rank_normalize steps hClosed rank hrank
  have hmain := addRequested_spec steps hND hClosed rk hrk hbound
  obtain ⟨needed, heq, -, hreqmem, -, hcl, hchar⟩ :=
    hmain req hreq [] (by intro x hx; cases hx)
      (by intro x hx _ _ _ _; cases hx)
  have hiff : ∀ x, needed.contains x = true ↔
      ∃ r ∈ req, DepReaches steps r x := by
    intro x
    constructor
    · intro hc
      rcases hchar x (mem_of_contains_true _ _ hc) with h0 | h
      · cases h0
      · exact h
    · rintro ⟨r, hr, hreach⟩
      exact contains_true_of_mem _ _
        (depClosed_reaches hcl (hreqmem r hr) hreach)
  refine ⟨steps.filter fun s => needed.contains s.name, ?_,
    List.filter_sublist _, ?_, ?_⟩
  · simp only [resolveStepsWithDeps, heq]
  · intro s
    rw [List.mem_filter]
    constructor
    · rintro ⟨hs, hc⟩
      exact ⟨hs, (hiff _).1 hc⟩
    · rintro ⟨hs, hex⟩
      exact ⟨hs, (hiff _).2 hex⟩
  · intro req' hmemiff
    have hreq' : ∀ r ∈ req', r ∈ steps.map Step.name :=
      fun r hr => hreq r ((hmemiff r).1 hr)
    obtain ⟨needed2, heq2, -, hreqmem2, -, hcl2, hchar2⟩ :=
      hmain req' hreq' [] (by intro x hx; cases hx)
        (by intro x hx _ _ _ _; cases hx)
    have hiff2 : ∀ x, needed2.contains x = true ↔
        ∃ r ∈ req', DepReaches steps r x := by
      intro x
      constructor
      · intro hc
        rcases hchar2 x (mem_of_contains_true _ _ hc) with h0 | h
        · cases h0
        · exact h
      · rintro ⟨r, hr, hreach⟩
        exact contains_true_of_mem _ _
          (depClosed_reaches hcl2 (hreqmem2 r hr) hreach)
    simp only [resolveStepsWithDeps, heq, heq2]
    congr 1
    apply List.filter_congr
    intro s _
    cases hc : needed.contains s.name with
    | true =>
      obtain ⟨r, hr, hreach⟩ := (hiff _).1 hc
      exact (hiff2 _).2 ⟨r, (hmemiff r).2 hr, hreach⟩
    | false =>
      cases hc2 : needed2.contains s.name with
      | false => rfl
      | true =>
        obtain ⟨r, hr, hreach⟩ := (hiff2 _).1 hc2
        have hcontra : needed.contains s.name = true :=
          (hiff _).2 ⟨r, (hmemiff r).1 hr, hreach⟩
        rw [hc] at hcontra
        cases hcontra

/-- C3 witness: the resolver applied to the scenario steps
`lint ← build ← test` with request `["test"]`, every hypothesis discharged
on the concrete data (with the explicit height `lint ↦ 0`, `build ↦ 1`,
`test ↦ 2`). -/
theorem C3_resolveStepsWithDeps_witness :
    ∃ out, resolveStepsWithDeps scenarioSteps ["test"] = Except.ok out ∧
      out.Sublist scenarioSteps ∧
      (∀ s : Step, s ∈ out ↔ s ∈ scenarioSteps ∧
        ∃ r ∈ ["test"], DepReaches scenarioSteps r s.name) ∧
      (∀ req' : List String, (∀ x, x ∈ req' ↔ x ∈ ["test"]) →
        resolveStepsWithDeps scenarioSteps req' =
          resolveStepsWithDeps scenarioSteps ["test"]) :=
  C3_resolveStepsWithDeps scenarioSteps ["test"] (by decide) (by decide)
    ⟨fun s => if s = "lint" then 0 else if s = "build" then 1 else 2,
      by decide⟩
    (by decide)

/-- Helper: an element of an indexed layer is in the flattened layer list. -/
theorem mem_flatten_of_getD {α : Type} :
    ∀ (l : List (List α)) (i : Nat) (x : α),
      x ∈ l.getD i [] → x ∈ l.flatten := by
  intro l
  induction l with
  | nil =>
    intro i x h
    simp [List.getD] at h
  | cons a t ih =>
    intro i x h
    cases i with
    | zero =>
      simp only [List.getD_cons_zero] at h
      rw [List.flatten_cons]
      exact List.mem_append_left _ h
    | succ i' =>
      simp only [List.getD_cons_succ] at h
      rw [List.flatten_cons]
      exact List.mem_append_right _ (ih i' x h)

/-- Helper: a `start` event of a layer's event block names one of the
layer's task IDs. -/
theorem start_mem_layerEvents {exec : TaskNode → Bool} {layer : List TaskNode}
    {id : String} (h : TaskEv.start id ∈ layerEvents exec layer) :
    id ∈ layer.map taskId := by
  rcases List.mem_append.1 h with h1 | h2
  · obtain ⟨n, hn, he⟩ := List.mem_map.1 h1
    injection he with he'
    exact he' ▸ List.mem_map_of_mem _ hn
  · obtain ⟨n, hn, he⟩ := List.mem_map.1 h2
    simp at he

/-- Helper: a failing `settle` event of a layer's event block forces the
layer's aggregate success to be false. -/
theorem all_false_of_settle_false {exec : TaskNode → Bool}
    {layer : List TaskNode} {id : String}
    (h : TaskEv.settle id false ∈ layerEvents exec layer) :
    layer.all exec = false := by
  rcases List.mem_append.1 h with h1 | h2
  · obtain ⟨n, hn, he⟩ := List.mem_map.1 h1
    simp at he
  · obtain ⟨n, hn, he⟩ := List.mem_map.1 h2
    injection he with he1 he2
    cases hall : layer.all exec with
    | false => rfl
    | true =>
      have := List.all_eq_true.1 hall n hn
      rw [this] at he2
      cases he2

/-- Helper (C7 part one): with distinct task IDs across layers, whenever a
task of a later layer is started, every task of any earlier layer has
already settled: the trace splits into a prefix containing the earlier
task's settle event and no occurrence of the later task's start event. -/
theorem runTrace_settle_before_start (exec : TaskNode → Bool) :
    ∀ layers : List (List TaskNode),
      (layers.flatten.map taskId).Nodup →
      ∀ i j : Nat, i < j →
      ∀ n ∈ layers.getD i [], ∀ m ∈ layers.getD j [],
      TaskEv.start (taskId m) ∈ runTrace exec layers →
      ∃ pre post, runTrace exec layers = pre ++ post ∧
        TaskEv.settle (taskId n) (exec n) ∈ pre ∧
        TaskEv.start (taskId m) ∉ pre := by
  intro layers
  induction layers with
  | nil =>
    intro _ i j _ n hn
    simp [List.getD] at hn
  | cons layer rest ih =>
    intro hnd i j hij n hn m hm hstart
    rw [List.flatten_cons, List.map_append] at hnd
    have hndrest : (rest.flatten.map taskId).Nodup :=
      hnd.of_append_right
    have hdis : List.Disjoint (layer.map taskId) (rest.flatten.map taskId) :=
      (List.nodup_append.1 hnd).2.2
    cases j with
    | zero => omega
    | succ j' =>
      simp only [List.getD_cons_succ] at hm
      have hmrest : m ∈ rest.flatten := mem_flatten_of_getD rest j' m hm
      have hstartlayer : TaskEv.start (taskId m) ∉ layerEvents exec layer := by
        intro hmem
        exact hdis (start_mem_layerEvents hmem) (List.mem_map_of_mem _ hmrest)
      cases i with
      | zero =>
        simp only [List.getD_cons_zero] at hn
        have hle : ¬layer.isEmpty = true := by
          intro h
          rw [List.isEmpty_iff] at h
          rw [h] at hn
          cases hn
        have htr : runTrace exec (layer :: rest) = layerEvents exec layer ++
            (if layer.all exec then runTrace exec rest else []) := by
          simp only [runTrace]
          rw [if_neg hle]
        refine ⟨layerEvents exec layer,
          if layer.all exec then runTrace exec rest else [], htr, ?_, hstartlayer⟩
        exact List.mem_append_right _ (List.mem_map_of_mem _ hn)
      | succ i' =>
        simp only [List.getD_cons_succ] at hn
        by_cases hle : layer.isEmpty = true
        · have htr : runTrace exec (layer :: rest) = runTrace exec rest := by
            simp only [runTrace]
            rw [if_pos hle]
          rw [htr] at hstart ⊢
          exact ih hndrest i' j' (Nat.lt_of_succ_lt_succ hij) n hn m hm hstart
        · by_cases hall : layer.all exec = true
          · have htr : runTrace exec (layer :: rest) =
                layerEvents exec layer ++ runTrace exec rest := by
              simp only [runTrace]
              rw [if_neg hle, if_pos hall]
            rw [htr] at hstart
            have hstart' : TaskEv.start (taskId m) ∈ runTrace exec rest := by
              rcases List.mem_append.1 hstart with h1 | h2
              · exact absurd h1 hstartlayer
              · exact h2
            obtain ⟨pre, post, hsplit, hsettle, hnostart⟩ :=
              ih hndrest i' j' (Nat.lt_of_succ_lt_succ hij) n hn m hm hstart'
            refine ⟨layerEvents exec layer ++ pre, post, ?_,
              List.mem_append_right _ hsettle, ?_⟩
            · rw [htr, hsplit, List.append_assoc]
            · intro hmem
              rcases List.mem_append.1 hmem with h1 | h2
              · exact hstartlayer h1
              · exact hnostart h2
          · have htr : runTrace exec (layer :: rest) =
                layerEvents exec layer ++ [] := by
              simp only [runTrace]
              rw [if_neg hle, if_neg hall]
            rw [htr] at hstart
            rcases List.mem_append.1 hstart with h1 | h2
            · exact absurd h1 hstartlayer
            · cases h2

/-- Helper (C7 part two): after a failing settle event, every later event of
the trace is a settle event — no task is ever started after a failure has
been observed. -/
theorem runTrace_stop_after_failure (exec : TaskNode → Bool) :
    ∀ (layers : List (List TaskNode)) (id : String) (pre mid : List TaskEv),
      runTrace exec layers = pre ++ TaskEv.settle id false :: mid →
      ∀ e ∈ mid, ∃ id2 b, e = TaskEv.settle id2 b := by
  intro layers
  induction layers with
  | nil =>
    intro id pre mid h
    simp only [runTrace] at h
    exact absurd h.symm (by simp)
  | cons layer rest ih =>
    intro id pre mid h e he
    by_cases hle : layer.isEmpty = true
    · rw [show runTrace exec (layer :: rest) = runTrace exec rest from by
        simp only [runTrace]; rw [if_pos hle]] at h
      exact ih id pre mid h e he
    · rw [show runTrace exec (layer :: rest) = layerEvents exec layer ++
          (if layer.all exec then runTrace exec rest else []) from by
        simp only [runTrace]; rw [if_neg hle]] at h
      rcases List.append_eq_append_iff.1 h with ⟨k, hk1, hk2⟩ | ⟨k, hk1, hk2⟩
      · -- the failing settle lies in the tail after this layer's events
        cases hall : layer.all exec with
        | true =>
          rw [hall, if_pos rfl] at hk2
          exact ih id k mid hk2 e he
        | false =>
          rw [hall] at hk2
          simp at hk2
      · -- the failing settle lies inside this layer's events
        cases k with
        | nil =>
          simp only [List.nil_append] at hk2
          cases hall : layer.all exec with
          | true =>
            rw [hall, if_pos rfl] at hk2
            exact ih id [] mid (by simpa using hk2.symm) e he
          | false =>
            rw [hall] at hk2
            simp at hk2
        | cons k0 k' =>
          rw [List.cons_append] at hk2
          injection hk2 with h1 h2
          subst h1
          have hmemev : TaskEv.settle id false ∈ layerEvents exec layer := by
            rw [hk1]
            exact List.mem_append_right _ (List.mem_cons_self _ _)
          have hall : layer.all exec = false := all_false_of_settle_false hmemev
          rw [hall] at h2
          simp only [Bool.false_eq_true, if_false, List.append_nil] at h2
          -- h2 : mid = k'
          have hk1' : (layer.map fun n => TaskEv.start (taskId n)) ++
              (layer.map fun n => TaskEv.settle (taskId n) (exec n)) =
              pre ++ TaskEv.settle id false :: k' := hk1
          rcases List.append_eq_append_iff.1 hk1' with ⟨w, hw1, hw2⟩ | ⟨w, hw1, hw2⟩
          · -- the settles block is w ++ settle :: k'
            have hsuff : e ∈ (layer.map fun n =>
                TaskEv.settle (taskId n) (exec n)) := by
              rw [hw2]
              refine List.mem_append_right _ (List.mem_cons_of_mem _ ?_)
              rw [h2] at he
              exact he
            obtain ⟨n, hn, hne⟩ := List.mem_map.1 hsuff
            exact ⟨taskId n, exec n, hne.symm⟩
          · cases w with
            | nil =>
              simp only [List.nil_append] at hw2
              have hsuff : e ∈ (layer.map fun n =>
                  TaskEv.settle (taskId n) (exec n)) := by
                rw [← hw2]
                rw [h2] at he
                exact List.mem_cons_of_mem _ he
              obtain ⟨n, hn, hne⟩ := List.mem_map.1 hsuff
              exact ⟨taskId n, exec n, hne.symm⟩
            | cons w0 w' =>
              rw [List.cons_append] at hw2
              injection hw2 with hq1 hq2
              have hmemst : TaskEv.settle id false ∈
                  (layer.map fun n => TaskEv.start (taskId n)) := by
                rw [hw1, hq1]
                exact List.mem_append_right _ (List.mem_cons_self _ _)
              obtain ⟨n, hn, hne⟩ := List.mem_map.1 hmemst
              simp at hne

/-- C7: in the workspace-script executor's layered run, (1) with distinct
task IDs, every task of an earlier layer settles before any task of a later
layer starts — the trace has a prefix containing the earlier task's settle
and no occurrence of the later task's start; and (2) once any task has
settled with failure, no task is ever started afterwards — every event after
a failing settle is itself a settle event. -/
theorem C7_runBunAction_layer_order :
    (∀ (exec : TaskNode → Bool) (layers : List (List TaskNode)),
      (layers.flatten.map taskId).Nodup →
      ∀ i j : Nat, i < j →
      ∀ n ∈ layers.getD i [], ∀ m ∈ layers.getD j [],
      TaskEv.start (taskId m) ∈ runTrace exec layers →
      ∃ pre post, runTrace exec layers = pre ++ post ∧
        TaskEv.settle (taskId n) (exec n) ∈ pre ∧
        TaskEv.start (taskId m) ∉ pre) ∧
    (∀ (exec : TaskNode → Bool) (layers : List (List TaskNode)) (id : String)
        (pre mid : List TaskEv),
      runTrace exec layers = pre ++ TaskEv.settle id false :: mid →
      ∀ e ∈ mid, ∃ id2 b, e = TaskEv.settle id2 b) :=
  ⟨runTrace_settle_before_start, runTrace_stop_after_failure⟩

/-- C7 witness: the inter-layer ordering applied to the concrete two-layer
run `[[a#t], [b#t]]` with every task succeeding. -/
theorem C7_runBunAction_layer_order_witness :
    ∃ pre post,
      runTrace (fun _ => true) [[cycleNodeA], [cycleNodeB]] = pre ++ post ∧
      TaskEv.settle (taskId cycleNodeA) true ∈ pre ∧
      TaskEv.start (taskId cycleNodeB) ∉ pre :=
  C7_runBunAction_layer_order.1 (fun _ => true) [[cycleNodeA], [cycleNodeB]]
    (by decide) 0 1 (by decide) cycleNodeA (by decide) cycleNodeB (by decide)
    (by decide)

/-- `isPrefixOf` is transitive. -/
theorem isPrefixOf_trans {a b c : List Char} (h1 : a.isPrefixOf b = true)
    (h2 : b.isPrefixOf c = true) : a.isPrefixOf c = true := by
  rw [List.isPrefixOf_iff_prefix] at h1 h2 ⊢
  exact h1.trans h2

/-- The worktree-containment check, in isolation: acceptance returns a path
under the root. -/
theorem safeCheck_ok {w fp p msg : List Char}
    (h : (if (w ++ ['/']).isPrefixOf fp = true ∨ fp = w then Except.ok fp
      else Except.error msg) = Except.ok p) : w.isPrefixOf p = true := by
  split at h
  case isTrue hcond =>
    injection h with h
    subst h
    rcases hcond with hpre | heq
    · refine isPrefixOf_trans ?_ hpre
      rw [List.isPrefixOf_iff_prefix]
      exact List.prefix_append _ _
    · rw [heq, List.isPrefixOf_iff_prefix]
  case isFalse hcond => simp at h

/-- The worktree-containment check, in isolation: rejection returns the
supplied message. -/
theorem safeCheck_error {w fp e msg : List Char}
    (h : (if (w ++ ['/']).isPrefixOf fp = true ∨ fp = w then Except.ok fp
      else Except.error msg) = Except.error e) : e = msg := by
  split at h
  · simp at h
  · injection h with h
    exact h.symm

/-- A path accepted by `resolveSafePath` starts with the worktree root. -/
theorem resolveSafePath_ok_prefix {g w r c p : List Char}
    (h : resolveSafePath g w r c = Except.ok p) : w.isPrefixOf p = true := by
  simp only [resolveSafePath] at h
  split at h <;> exact safeCheck_ok h

/-- A rejection by `resolveSafePath` carries the traversal message. -/
theorem resolveSafePath_error_msg {g w r c e : List Char}
    (h : resolveSafePath g w r c = Except.error e) :
    (strChars "Path traversal detected: ").isPrefixOf e = true := by
  simp only [resolveSafePath] at h
  split at h <;>
    (rw [safeCheck_error h, List.isPrefixOf_iff_prefix]
     exact List.prefix_append _ _)

/-- Every file destination produced by the glob loop lies under the
destination worktree root. -/
theorem copyGlobLoop_files_prefix (g dR dsp cwd sbp : List Char)
    (fe : List Char → Bool) (ms : List (List Char)) :
    ∀ fd ∈ (copyGlobLoop g dR dsp cwd sbp fe ms).files,
      dR.isPrefixOf fd.2 = true := by
  induction ms with
  | nil => intro fd hfd; simp [copyGlobLoop] at hfd
  | cons m rest ih =>
    intro fd hfd
    simp only [copyGlobLoop] at hfd
    split at hfd
    case h_1 e heq => simp at hfd
    case h_2 dp heq =>
      simp only [List.mem_cons] at hfd
      rcases hfd with hfd | hfd
      · rw [hfd]
        exact resolveSafePath_ok_prefix heq
      · exact ih fd hfd

/-- C1: every destination path `copy` actually writes starts with the
destination worktree root; every `resolveSafePath` rejection has an error
message beginning with "Path traversal detected"; and the concrete call
`copy("../../../etc/passwd", "passwd", gitRoot)` fails with that error and
writes nothing. -/
theorem C1_copy_path_safety (gitRoot : List Char) (worktrees : List WorktreeInfo)
    (fsExists : List Char → Bool) (scan : List Char → List (List Char))
    (src dest cwd destRoot : List Char)
    (hd : getWorktreeRoot gitRoot worktrees (parsePathSpec dest).branch =
      Except.ok destRoot) :
    (∀ fd ∈ (copy gitRoot worktrees fsExists scan src dest cwd).files,
      destRoot.isPrefixOf fd.2 = true) ∧
    (∀ g w r c e, resolveSafePath g w r c = Except.error e →
      (strChars "Path traversal detected: ").isPrefixOf e = true) ∧
    copy (strChars "/repo") [] (fun _ => true) (fun _ => [])
        (strChars "../../../etc/passwd") (strChars "passwd") (strChars "/repo") =
      ⟨[], [], some (strChars
        "Path traversal detected: ../../../etc/passwd resolves outside worktree")⟩ := by
  refine ⟨?_, fun g w r c e he => resolveSafePath_error_msg he, by rfl⟩
  intro fd hfd
  simp only [copy] at hfd
  split at hfd
  case h_1 e heq => simp at hfd
  case h_2 srcRoot hsr =>
    split at hfd
    case h_1 e heq => simp at hfd
    case h_2 dR hdr =>
      rw [hd] at hdr
      injection hdr with hdr
      subst hdr
      split at hfd
      · split at hfd
        case h_1 e heq => simp at hfd
        case h_2 sbp hsbp =>
          exact copyGlobLoop_files_prefix gitRoot destRoot
            (parsePathSpec dest).path cwd sbp fsExists (scan sbp) fd hfd
      · split at hfd
        case h_1 e heq => simp at hfd
        case h_2 sp hsp =>
          split at hfd
          case h_1 e heq => simp at hfd
          case h_2 dp hdp =>
            split at hfd
            · simp only [List.mem_singleton] at hfd
              rw [hfd]
              exact resolveSafePath_ok_prefix hdp
            · simp at hfd

/-- C1 at a concrete instance: no-branch specs in the bare repository. -/
theorem C1_copy_path_safety_witness :
    (∀ fd ∈ (copy (strChars "/repo") [] (fun _ => true) (fun _ => [])
        (strChars "a.txt") (strChars "b.txt") (strChars "/repo")).files,
      (strChars "/repo").isPrefixOf fd.2 = true) ∧
    (∀ g w r c e, resolveSafePath g w r c = Except.error e →
      (strChars "Path traversal detected: ").isPrefixOf e = true) ∧
    copy (strChars "/repo") [] (fun _ => true) (fun _ => [])
        (strChars "../../../etc/passwd") (strChars "passwd") (strChars "/repo") =
      ⟨[], [], some (strChars
        "Path traversal detected: ../../../etc/passwd resolves outside worktree")⟩ :=
  C1_copy_path_safety (strChars "/repo") [] (fun _ => true) (fun _ => [])
    (strChars "a.txt") (strChars "b.txt") (strChars "/repo") (strChars "/repo")
    (by rfl)

end OpenTurbo
